import Mathlib

/-!
Verification of the windowed-volatility scripts: a shallow embedding of the
six Python scripts (BTC 06:30 session with filter, BTC 18:30 session,
ETH weekly Thursday windows, Nifty daily, Nifty weekly-expiry,
Nifty monthly-expiry) and proofs about their window partitioning and
statistics aggregation.

Conventions of the embedding:
* Prices are rationals (the scripts use IEEE doubles only for plain
  field arithmetic on exact decimal inputs; the algebra is what matters here).
* Minute timestamps of the crypto feeds are `Nat` minutes since the Unix
  epoch (1970-01-01, a Thursday); `ts / 1440` is the calendar day and
  `(day + 3) % 7` is pandas `dayofweek` (Monday = 0).
* Daily Nifty timestamps are calendar `Date`s; `Date.toOrdinal` is exactly
  Python's `date.toordinal` (day 1 = 0001-01-01, a Monday), so timestamp
  order and arithmetic on day offsets are ordinal order and arithmetic.
* `pd.DataFrame(results).sort_values(key)` raises `KeyError` when `results`
  is the empty list (the empty frame has no columns); the models return
  `Except.error` in exactly that case and the sorted table otherwise.
-/

/- ### Calendar model (proleptic Gregorian, as in Python `datetime`) -/

/-- A calendar date, year/month/day. -/
structure Date where
  year : Nat
  month : Nat
  day : Nat
deriving DecidableEq

/-- Gregorian leap-year rule, Python `calendar.isleap`. -/
def isLeap (y : Nat) : Bool := (y % 4 == 0 && y % 100 != 0) || y % 400 == 0

/-- Number of days in a month, Python `calendar.monthrange(y, m)[1]`. -/
def monthLen (y m : Nat) : Nat :=
  match m with
  | 1 => 31
  | 2 => if isLeap y then 29 else 28
  | 3 => 31
  | 4 => 30
  | 5 => 31
  | 6 => 30
  | 7 => 31
  | 8 => 31
  | 9 => 30
  | 10 => 31
  | 11 => 30
  | 12 => 31
  | _ => 0

/-- Days in months `1 .. m-1` of year `y`. -/
def daysBeforeMonth (y : Nat) : Nat → Nat
  | 0 => 0
  | 1 => 0
  | m + 2 => daysBeforeMonth y (m + 1) + monthLen y (m + 1)

/-- Leap days among years `1 .. y`. -/
def leapsBefore (y : Nat) : Nat := y / 4 + y / 400 - y / 100

/-- Python `date.toordinal`: day count with day 1 = 0001-01-01. -/
def Date.toOrdinal (d : Date) : Nat :=
  365 * (d.year - 1) + leapsBefore (d.year - 1) + daysBeforeMonth d.year d.month + d.day

/-- Python `datetime.weekday`, Monday = 0; 0001-01-01 is a Monday. -/
def Date.weekday (d : Date) : Nat := (d.toOrdinal + 6) % 7

/-- The date is a real calendar date. -/
def ValidDate (d : Date) : Prop :=
  1 ≤ d.year ∧ 1 ≤ d.month ∧ d.month ≤ 12 ∧ 1 ≤ d.day ∧ d.day ≤ monthLen d.year d.month

instance (d : Date) : Decidable (ValidDate d) := by
  unfold ValidDate; infer_instance

/-- Months since 0001-01: a linear index of the calendar month of a date. -/
def monthIdx (d : Date) : Nat := (d.year - 1) * 12 + (d.month - 1)

/- ### OHLC bars and small list utilities -/

/-- Minute bar of the crypto feeds; `ts` in minutes since the Unix epoch. -/
structure MBar where
  ts : Nat
  open_ : ℚ
  high : ℚ
  low : ℚ
  close : ℚ
deriving DecidableEq

/-- Daily Nifty CSV row; `close` models the `Price` column, `changePct`
the `Change %` column. -/
structure NBar where
  date : Date
  open_ : ℚ
  high : ℚ
  low : ℚ
  close : ℚ
  changePct : ℚ
deriving DecidableEq

/-- Placeholder bar used as the (never reached) default of `headD`. -/
def defMBar : MBar := ⟨0, 0, 0, 0, 0⟩

/-- Placeholder bar used as the (never reached) default of `headD`. -/
def defNBar : NBar := ⟨⟨1, 1, 1⟩, 0, 0, 0, 0, 0⟩

/-- Maximum of a list of rationals, `Series.max`. -/
def qmax : List ℚ → ℚ
  | [] => 0
  | [a] => a
  | a :: b :: r => max a (qmax (b :: r))

/-- Minimum of a list of rationals, `Series.min`. -/
def qmin : List ℚ → ℚ
  | [] => 0
  | [a] => a
  | a :: b :: r => min a (qmin (b :: r))

/-- First bar of a slice, `.iloc[0]`. -/
def headM (l : List MBar) : MBar := l.headD defMBar

/-- Last bar of a slice, `.iloc[-1]`. -/
def lastM (l : List MBar) : MBar := l.getLastD defMBar

/-- First bar of a slice, `.iloc[0]`. -/
def headN (l : List NBar) : NBar := l.headD defNBar

/-- Last bar of a slice, `.iloc[-1]`. -/
def lastN (l : List NBar) : NBar := l.getLastD defNBar

/-- `pd.Index.unique`: drop duplicates keeping the first occurrence. -/
def uniqueKeep : List Nat → List Nat
  | [] => []
  | a :: rest => a :: uniqueKeep (rest.filter (fun x => x != a))
termination_by l => l.length
decreasing_by
  simp only [List.length_cons]
  exact Nat.lt_succ_of_le (List.length_filter_le _ _)

/-- Insert into a list already ascending by `key`. -/
def insertByKey {α : Type} (key : α → Nat) (a : α) : List α → List α
  | [] => [a]
  | b :: rest => if key a ≤ key b then a :: b :: rest else b :: insertByKey key a rest

/-- Sort ascending by a `Nat` key; models `DataFrame.sort_values` on a
column of timestamps. -/
def sortByKey {α : Type} (key : α → Nat) : List α → List α
  | [] => []
  | a :: rest => insertByKey key a (sortByKey key rest)

/- ### btc/btc_fluction_withfilter.py : 06:30 UTC daily session, 5h30m -/

namespace BtcFilter

/-- Distinct calendar days of the series, in order of appearance
(`pd.to_datetime(df.index.date).unique()`). -/
def unique_dates (s : List MBar) : List Nat := uniqueKeep (s.map (fun b => b.ts / 1440))

/-- Bars with `open_time ≤ ts ≤ close_time` for the 06:30 + 5h30m session
of day `d` (06:30 = minute 390 of the day, 12:00 = minute 720). -/
def sessionSlice (s : List MBar) (d : Nat) : List MBar :=
  s.filter (fun b => decide (d * 1440 + 390 ≤ b.ts) && decide (b.ts ≤ d * 1440 + 720))

/-- One row of the result table. `day_of_week` models `strftime('%A')`
numerically (Monday = 0). -/
structure SessionResult where
  date : Nat
  day_of_week : Nat
  open_time : Nat
  close_time : Nat
  open_ : ℚ
  high : ℚ
  low : ℚ
  close : ℚ
  true_volatility_pct : ℚ
  direction : String
  upward_vol_pct : ℚ
  downward_vol_pct : ℚ
  net_change_pct : ℚ
  range_abs : ℚ
  data_points : Nat
deriving DecidableEq

/-- The per-window statistics block of `calculate_precise_session_stats`. -/
def aggregate (d : Nat) (slice : List MBar) : SessionResult :=
  let open_price := (headM slice).close
  let high_price := qmax (slice.map (fun b => b.high))
  let low_price := qmin (slice.map (fun b => b.low))
  let close_price := (lastM slice).close
  let upward_vol := (high_price - open_price) / open_price * 100
  let downward_vol := (open_price - low_price) / open_price * 100
  { date := d
    day_of_week := (d + 3) % 7
    open_time := d * 1440 + 390
    close_time := d * 1440 + 720
    open_ := open_price
    high := high_price
    low := low_price
    close := close_price
    true_volatility_pct := max upward_vol downward_vol
    direction := if downward_vol < upward_vol then ("up") else ("down")
    upward_vol_pct := upward_vol
    downward_vol_pct := downward_vol
    net_change_pct := (close_price - open_price) / open_price * 100
    range_abs := high_price - low_price
    data_points := slice.length }

/-- The `results` list accumulated by the loop: one row per distinct day
whose session slice has more than 10 bars. -/
def sessionResults (s : List MBar) : List SessionResult :=
  (unique_dates s).filterMap (fun d =>
    let slice := sessionSlice s d
    if 10 < slice.length then some (aggregate d slice) else none)

/-- `calculate_precise_session_stats`: builds the rows and returns
`pd.DataFrame(results).sort_values('date')`; when `results` is empty the
frame has no `date` column and `sort_values` raises `KeyError`. -/
def calculate_precise_session_stats (s : List MBar) : Except String (List SessionResult) :=
  let results := sessionResults s
  if results.isEmpty then Except.error ("KeyError: date")
  else Except.ok (sortByKey (fun r => r.date) results)

/-- The minimum-volatility filter of `create_interactive_plot`:
`results_df[results_df['true_volatility_pct'] >= min_volatility]`. -/
def filterByMinVol (t : ℚ) (rs : List SessionResult) : List SessionResult :=
  rs.filter (fun r => decide (t ≤ r.true_volatility_pct))

/-- Largest `true_volatility_pct` of a table (0 for the empty table). -/
def maxTrueVol (rs : List SessionResult) : ℚ :=
  rs.foldr (fun r m => max r.true_volatility_pct m) 0

end BtcFilter

/- ### btc_fluctuation.py : 18:30 UTC daily session, 17h30m -/

namespace BtcFluct

/-- One row of the result table of the 18:30 variant. -/
structure FluctResult where
  date : Nat
  open_time : Nat
  close_time : Nat
  open_ : ℚ
  close : ℚ
  high : ℚ
  low : ℚ
  pct_change : ℚ
  volatility_pct : ℚ
  max_gain_pct : ℚ
  max_loss_pct : ℚ
  range_abs : ℚ
  data_points : Nat
  direction : String
deriving DecidableEq

/-- Bars of the 18:30 + 17h30m session of day `d` (18:30 = minute 1110;
the window closes next day at 12:00 = minute 2160 from day start). -/
def sessionSlice (s : List MBar) (d : Nat) : List MBar :=
  s.filter (fun b => decide (d * 1440 + 1110 ≤ b.ts) && decide (b.ts ≤ d * 1440 + 2160))

/-- The per-window statistics block; `direction` compares close to open. -/
def aggregate (d : Nat) (slice : List MBar) : FluctResult :=
  let open_price := (headM slice).close
  let close_price := (lastM slice).close
  let high_price := qmax (slice.map (fun b => b.high))
  let low_price := qmin (slice.map (fun b => b.low))
  { date := d
    open_time := d * 1440 + 1110
    close_time := d * 1440 + 2160
    open_ := open_price
    close := close_price
    high := high_price
    low := low_price
    pct_change := (close_price - open_price) / open_price * 100
    volatility_pct := (high_price - low_price) / open_price * 100
    max_gain_pct := (high_price - open_price) / open_price * 100
    max_loss_pct := (low_price - open_price) / open_price * 100
    range_abs := high_price - low_price
    data_points := slice.length
    direction := if open_price < close_price then ("up") else ("down") }

/-- The `results` list: one row per distinct day with more than 10 bars in
its session window. -/
def sessionResults (s : List MBar) : List FluctResult :=
  (uniqueKeep (s.map (fun b => b.ts / 1440))).filterMap (fun d =>
    let slice := sessionSlice s d
    if 10 < slice.length then some (aggregate d slice) else none)

/-- `calculate_precise_session_stats` of the 18:30 script. -/
def calculate_precise_session_stats (s : List MBar) : Except String (List FluctResult) :=
  let results := sessionResults s
  if results.isEmpty then Except.error ("KeyError: date")
  else Except.ok (sortByKey (fun r => r.date) results)

end BtcFluct

/- ### btc/eth_volatility_Thrusday_NextFriday.py : weekly Thursday windows -/

namespace EthWeekly

/-- One row of the weekly result table. -/
structure WeekResult where
  start_date : Nat
  end_date : Nat
  open_time : Nat
  close_time : Nat
  open_ : ℚ
  high : ℚ
  low : ℚ
  close : ℚ
  true_volatility_pct : ℚ
  direction : String
  upward_vol_pct : ℚ
  downward_vol_pct : ℚ
  net_change_pct : ℚ
  range_abs : ℚ
  data_points : Nat
deriving DecidableEq

/-- Distinct normalized days of the bars falling on a Thursday
(`df[df.index.dayofweek == 3]`, then `.index.normalize().unique()`). -/
def thursdayDays (s : List MBar) : List Nat :=
  uniqueKeep ((s.filter (fun b => (b.ts / 1440 + 3) % 7 == 3)).map (fun b => b.ts / 1440))

/-- Bars of the window from Thursday 12:00 of day `t` to 12:00 seven days
later (minute 720 to minute 720 + 10080). -/
def weekSlice (s : List MBar) (t : Nat) : List MBar :=
  s.filter (fun b => decide (t * 1440 + 720 ≤ b.ts) && decide (b.ts ≤ t * 1440 + 10800))

/-- The per-window statistics block of `calculate_weekly_volatility`. -/
def aggregate (t : Nat) (slice : List MBar) : WeekResult :=
  let open_price := (headM slice).close
  let high_price := qmax (slice.map (fun b => b.high))
  let low_price := qmin (slice.map (fun b => b.low))
  let close_price := (lastM slice).close
  let upward_vol := (high_price - open_price) / open_price * 100
  let downward_vol := (open_price - low_price) / open_price * 100
  { start_date := (headM slice).ts / 1440
    end_date := (lastM slice).ts / 1440
    open_time := t * 1440 + 720
    close_time := t * 1440 + 10800
    open_ := open_price
    high := high_price
    low := low_price
    close := close_price
    true_volatility_pct := max upward_vol downward_vol
    direction := if downward_vol < upward_vol then ("up") else ("down")
    upward_vol_pct := upward_vol
    downward_vol_pct := downward_vol
    net_change_pct := (close_price - open_price) / open_price * 100
    range_abs := high_price - low_price
    data_points := slice.length }

/-- The `results` list: one row per Thursday whose week slice has more
than 10 bars. -/
def weeklyResults (s : List MBar) : List WeekResult :=
  (thursdayDays s).filterMap (fun t =>
    let slice := weekSlice s t
    if 10 < slice.length then some (aggregate t slice) else none)

/-- `calculate_weekly_volatility`. -/
def calculate_weekly_volatility (s : List MBar) : Except String (List WeekResult) :=
  let results := weeklyResults s
  if results.isEmpty then Except.error ("KeyError: start_date")
  else Except.ok (sortByKey (fun r => r.start_date) results)

end EthWeekly

/- ### nifty/DailyvolatilityNifty.py : one row per daily bar -/

namespace NiftyDaily

/-- One row of the daily result table; `date` is the row date's ordinal. -/
structure DailyResult where
  date : Nat
  day_of_week : Nat
  open_ : ℚ
  high : ℚ
  low : ℚ
  close : ℚ
  true_volatility_pct : ℚ
  direction : String
  upward_vol_pct : ℚ
  downward_vol_pct : ℚ
  net_change_pct : ℚ
  range_abs : ℚ
  change_pct : ℚ
deriving DecidableEq

/-- The loop body of `calculate_daily_stats`: metrics of a single bar,
measured against the bar's own `Open` column. -/
def mkDaily (b : NBar) : DailyResult :=
  let upward_vol := (b.high - b.open_) / b.open_ * 100
  let downward_vol := (b.open_ - b.low) / b.open_ * 100
  { date := b.date.toOrdinal
    day_of_week := b.date.weekday
    open_ := b.open_
    high := b.high
    low := b.low
    close := b.close
    true_volatility_pct := max upward_vol downward_vol
    direction := if downward_vol < upward_vol then ("up") else ("down")
    upward_vol_pct := upward_vol
    downward_vol_pct := downward_vol
    net_change_pct := (b.close - b.open_) / b.open_ * 100
    range_abs := b.high - b.low
    change_pct := b.changePct }

/-- The `results` list: one row per bar, unconditionally. -/
def dailyResults (s : List NBar) : List DailyResult := s.map mkDaily

/-- `calculate_daily_stats`. -/
def calculate_daily_stats (s : List NBar) : Except String (List DailyResult) :=
  let results := dailyResults s
  if results.isEmpty then Except.error ("KeyError: date")
  else Except.ok (sortByKey (fun r => r.date) results)

end NiftyDaily

/- ### Day-by-day window start search shared by the expiry scripts -/

/-- Fuel-indexed version of the advance loop
`while start not in index and start < next: start += 1`. -/
def findStartF (ords : List Nat) : Nat → Nat → Nat → Nat
  | 0, s, _ => s
  | fuel + 1, s, next => if s ∉ ords ∧ s < next then findStartF ords fuel (s + 1) next else s

/-- The advance loop itself: `next - s` steps always suffice. -/
def findStart (ords : List Nat) (s next : Nat) : Nat := findStartF ords (next - s) s next

/- ### nifty/WeeklyVolatilityExpiry.py : Thursday-to-Thursday expiry weeks -/

namespace NiftyWeekly

/-- The timestamps (ordinals) of the series index. -/
def ordsOf (s : List NBar) : List Nat := s.map (fun b => b.date.toOrdinal)

/-- All Thursday dates present in the series, in series order
(`df[df.index.weekday == 3].index`). -/
def thursdaysOf (s : List NBar) : List Date :=
  (s.map (fun b => b.date)).filter (fun d => d.weekday == 3)

/-- `df.loc[lo:hi]` on the date index: inclusive bounds. -/
def periodSlice (s : List NBar) (lo hi : Nat) : List NBar :=
  s.filter (fun b => decide (lo ≤ b.date.toOrdinal) && decide (b.date.toOrdinal ≤ hi))

/-- One row of the weekly-expiry result table. -/
structure WeeklyResult where
  expiry_date : Nat
  period_start : Nat
  period_end : Nat
  duration_days : Nat
  trading_days : Nat
  start_open : ℚ
  start_close : ℚ
  end_close : ℚ
  period_high : ℚ
  period_low : ℚ
  true_volatility_pct : ℚ
  direction : String
  upward_vol_pct : ℚ
  downward_vol_pct : ℚ
  net_change_pct : ℚ
  range_abs : ℚ
deriving DecidableEq

/-- The per-window statistics block of `calculate_expiry_week_stats`:
volatility is measured against `start_open`, the first bar's `Open`. -/
def mkWeekly (e1 : Date) (start : Nat) (e2 : Date) (slice : List NBar) : WeeklyResult :=
  let start_open := (headN slice).open_
  let period_high := qmax (slice.map (fun b => b.high))
  let period_low := qmin (slice.map (fun b => b.low))
  let upward_vol := (period_high - start_open) / start_open * 100
  let downward_vol := (start_open - period_low) / start_open * 100
  { expiry_date := e1.toOrdinal
    period_start := start
    period_end := e2.toOrdinal
    duration_days := e2.toOrdinal - start
    trading_days := slice.length
    start_open := start_open
    start_close := (headN slice).close
    end_close := (lastN slice).close
    period_high := period_high
    period_low := period_low
    true_volatility_pct := max upward_vol downward_vol
    direction := if downward_vol < upward_vol then ("up") else ("down")
    upward_vol_pct := upward_vol
    downward_vol_pct := downward_vol
    net_change_pct := ((lastN slice).close - start_open) / start_open * 100
    range_abs := period_high - period_low }

/-- The loop over consecutive pairs of expiry Thursdays: the window starts
at the first series day strictly after the expiry (advancing day by day,
capped at the next expiry) and ends at the next expiry; slices with fewer
than 3 bars are skipped. -/
def weeklyAux (s : List NBar) : List Date → List WeeklyResult
  | e1 :: e2 :: rest =>
    let start := findStart (ordsOf s) (e1.toOrdinal + 1) e2.toOrdinal
    let slice := periodSlice s start e2.toOrdinal
    (if slice.length < 3 then [] else [mkWeekly e1 start e2 slice]) ++ weeklyAux s (e2 :: rest)
  | _ => []

/-- The `results` list of `calculate_expiry_week_stats`. -/
def weeklyResults (s : List NBar) : List WeeklyResult := weeklyAux s (thursdaysOf s)

/-- `calculate_expiry_week_stats`. -/
def calculate_expiry_week_stats (s : List NBar) : Except String (List WeeklyResult) :=
  let results := weeklyResults s
  if results.isEmpty then Except.error ("KeyError: period_start")
  else Except.ok (sortByKey (fun r => r.period_start) results)

end NiftyWeekly

/- ### nifty/MonthlyVolatilityExpiry.py : monthly expiry windows -/

namespace NiftyMonthly

/-- The scan `for day in range(last_day, 0, -1)` looking for a Thursday. -/
def lastThursdayAux (y m : Nat) : Nat → Option Date
  | 0 => none
  | d + 1 =>
    if Date.weekday ⟨y, m, d + 1⟩ = 3 then some ⟨y, m, d + 1⟩ else lastThursdayAux y m d

/-- The calendar-last Thursday of month `(y, m)`. -/
def lastThursday (y m : Nat) : Option Date := lastThursdayAux y m (monthLen y m)

/-- The loop of `get_monthly_expiry_dates`: walk the series' Thursday
dates; at each change of the month *number* compute the calendar-last
Thursday of that date's month and keep it only when that exact date is
present in the series index. -/
def monthlyAux (dates : List Date) : Option Nat → List Date → List Date
  | _, [] => []
  | cur, t :: rest =>
    if some t.month = cur then monthlyAux dates cur rest
    else
      match lastThursday t.year t.month with
      | some lt => (if lt ∈ dates then [lt] else []) ++ monthlyAux dates (some t.month) rest
      | none => monthlyAux dates (some t.month) rest

/-- `get_monthly_expiry_dates`. -/
def get_monthly_expiry_dates (s : List NBar) : List Date :=
  monthlyAux (s.map (fun b => b.date)) none (NiftyWeekly.thursdaysOf s)

/-- One row of the monthly-expiry result table; the `month` label
`strftime('%Y-%m')` is modelled by the pair `month_year`, `month_month`. -/
structure MonthlyResult where
  month_year : Nat
  month_month : Nat
  monthly_expiry_date : Nat
  next_monthly_expiry : Nat
  period_start : Nat
  period_end : Nat
  calendar_days : Nat
  trading_days : Nat
  start_open : ℚ
  start_close : ℚ
  end_close : ℚ
  period_high : ℚ
  period_low : ℚ
  true_volatility_pct : ℚ
  direction : String
  upward_vol_pct : ℚ
  downward_vol_pct : ℚ
  net_change_pct : ℚ
  range_abs : ℚ
deriving DecidableEq

/-- The per-window statistics block of `calculate_monthly_expiry_stats`. -/
def mkMonthly (e1 : Date) (start : Nat) (e2 : Date) (slice : List NBar) : MonthlyResult :=
  let start_open := (headN slice).open_
  let period_high := qmax (slice.map (fun b => b.high))
  let period_low := qmin (slice.map (fun b => b.low))
  let upward_vol := (period_high - start_open) / start_open * 100
  let downward_vol := (start_open - period_low) / start_open * 100
  { month_year := e1.year
    month_month := e1.month
    monthly_expiry_date := e1.toOrdinal
    next_monthly_expiry := e2.toOrdinal
    period_start := start
    period_end := e2.toOrdinal
    calendar_days := e2.toOrdinal - start + 1
    trading_days := slice.length
    start_open := start_open
    start_close := (headN slice).close
    end_close := (lastN slice).close
    period_high := period_high
    period_low := period_low
    true_volatility_pct := max upward_vol downward_vol
    direction := if downward_vol < upward_vol then ("up") else ("down")
    upward_vol_pct := upward_vol
    downward_vol_pct := downward_vol
    net_change_pct := ((lastN slice).close - start_open) / start_open * 100
    range_abs := period_high - period_low }

/-- The loop over consecutive pairs of monthly expiries; slices with fewer
than 5 bars are skipped. -/
def monthlyWindows (s : List NBar) : List Date → List MonthlyResult
  | e1 :: e2 :: rest =>
    let start := findStart (NiftyWeekly.ordsOf s) (e1.toOrdinal + 1) e2.toOrdinal
    let slice := NiftyWeekly.periodSlice s start e2.toOrdinal
    (if slice.length < 5 then [] else [mkMonthly e1 start e2 slice]) ++ monthlyWindows s (e2 :: rest)
  | _ => []

/-- The `results` list of `calculate_monthly_expiry_stats`. -/
def monthlyResults (s : List NBar) : List MonthlyResult :=
  monthlyWindows s (get_monthly_expiry_dates s)

/-- `calculate_monthly_expiry_stats`. -/
def calculate_monthly_expiry_stats (s : List NBar) : Except String (List MonthlyResult) :=
  let results := monthlyResults s
  if results.isEmpty then Except.error ("KeyError: period_start")
  else Except.ok (sortByKey (fun r => r.period_start) results)

end NiftyMonthly

/- ### Lemmas about the list utilities -/

theorem insertByKey_length {α : Type} (key : α → Nat) (a : α) (l : List α) :
    (insertByKey key a l).length = l.length + 1 := by
  induction l with
  | nil => rfl
  | cons b rest ih =>
    rw [insertByKey]
    split
    · simp
    · simp [ih]

theorem sortByKey_length {α : Type} (key : α → Nat) (l : List α) :
    (sortByKey key l).length = l.length := by
  induction l with
  | nil => rfl
  | cons a rest ih => simp [sortByKey, insertByKey_length, ih]

theorem mem_insertByKey {α : Type} (key : α → Nat) (a x : α) (l : List α) :
    x ∈ insertByKey key a l ↔ x = a ∨ x ∈ l := by
  induction l with
  | nil => simp [insertByKey]
  | cons b rest ih =>
    rw [insertByKey]
    split
    · simp
    · simp only [List.mem_cons, ih]
      tauto

theorem mem_sortByKey {α : Type} (key : α → Nat) (x : α) (l : List α) :
    x ∈ sortByKey key l ↔ x ∈ l := by
  induction l with
  | nil => exact Iff.rfl
  | cons a rest ih => simp [sortByKey, mem_insertByKey, ih]

theorem uniqueKeep_subset : ∀ (n : Nat) (l : List Nat), l.length ≤ n →
    ∀ x ∈ uniqueKeep l, x ∈ l := by
  intro n
  induction n with
  | zero =>
    intro l hl x hx
    cases l with
    | nil => simp [uniqueKeep] at hx
    | cons a rest => simp at hl
  | succ n ih =>
    intro l hl x hx
    cases l with
    | nil => simp [uniqueKeep] at hx
    | cons a rest =>
      rw [uniqueKeep] at hx
      rcases List.mem_cons.mp hx with h | h
      · simp [h]
      · have hlen : (rest.filter (fun x => x != a)).length ≤ n :=
          le_trans (List.length_filter_le _ _) (by simpa using hl)
        exact List.mem_cons_of_mem a (List.mem_of_mem_filter (ih _ hlen x h))

theorem uniqueKeep_nodup : ∀ (n : Nat) (l : List Nat), l.length ≤ n →
    (uniqueKeep l).Nodup := by
  intro n
  induction n with
  | zero =>
    intro l hl
    cases l with
    | nil => simp [uniqueKeep]
    | cons a rest => simp at hl
  | succ n ih =>
    intro l hl
    cases l with
    | nil => simp [uniqueKeep]
    | cons a rest =>
      rw [uniqueKeep]
      have hlen : (rest.filter (fun x => x != a)).length ≤ n :=
        le_trans (List.length_filter_le _ _) (by simpa using hl)
      refine List.nodup_cons.mpr ⟨?_, ih _ hlen⟩
      intro hmem
      have := uniqueKeep_subset n _ hlen a hmem
      have := List.of_mem_filter this
      simp at this

theorem le_qmax : ∀ (l : List ℚ), ∀ x ∈ l, x ≤ qmax l := by
  intro l
  induction l with
  | nil => simp
  | cons a rest ih =>
    intro x hx
    cases rest with
    | nil =>
      rcases List.mem_cons.mp hx with h | h
      · simp [qmax, h]
      · simp at h
    | cons b r =>
      rw [qmax]
      rcases List.mem_cons.mp hx with h | h
      · subst h; exact le_max_left _ _
      · exact le_trans (ih x h) (le_max_right _ _)

theorem qmin_le : ∀ (l : List ℚ), ∀ x ∈ l, qmin l ≤ x := by
  intro l
  induction l with
  | nil => simp
  | cons a rest ih =>
    intro x hx
    cases rest with
    | nil =>
      rcases List.mem_cons.mp hx with h | h
      · simp [qmin, h]
      · simp at h
    | cons b r =>
      rw [qmin]
      rcases List.mem_cons.mp hx with h | h
      · subst h; exact min_le_left _ _
      · exact le_trans (min_le_right _ _) (ih x h)

/- ### Lemmas about the window-start advance loop -/

theorem findStartF_ge (ords : List Nat) :
    ∀ (fuel s next : Nat), s ≤ findStartF ords fuel s next := by
  intro fuel
  induction fuel with
  | zero => intro s next; simp [findStartF]
  | succ n ih =>
    intro s next
    rw [findStartF]
    split
    · exact le_trans (Nat.le_succ s) (ih (s + 1) next)
    · exact le_refl s

theorem findStartF_le (ords : List Nat) :
    ∀ (fuel s next : Nat), s ≤ next → findStartF ords fuel s next ≤ next := by
  intro fuel
  induction fuel with
  | zero => intro s next h; simpa [findStartF] using h
  | succ n ih =>
    intro s next h
    rw [findStartF]
    split
    · next hcond => exact ih (s + 1) next hcond.2
    · exact h

theorem findStartF_mem (ords : List Nat) :
    ∀ (fuel s next : Nat), next ≤ s + fuel →
      findStartF ords fuel s next ∈ ords ∨ next ≤ findStartF ords fuel s next := by
  intro fuel
  induction fuel with
  | zero => intro s next h; right; simpa [findStartF] using h
  | succ n ih =>
    intro s next h
    rw [findStartF]
    split
    · exact ih (s + 1) next (by omega)
    · next hcond =>
      rcases Decidable.not_and_iff_or_not.mp hcond with h1 | h2
      · left; exact Decidable.not_not.mp h1
      · right; omega

theorem findStartF_not_mem (ords : List Nat) :
    ∀ (fuel s next t : Nat), s ≤ t → t < findStartF ords fuel s next → t ∉ ords := by
  intro fuel
  induction fuel with
  | zero => intro s next t hst hlt; simp [findStartF] at hlt; omega
  | succ n ih =>
    intro s next t hst hlt
    rw [findStartF] at hlt
    split at hlt
    · next hcond =>
      rcases Nat.eq_or_lt_of_le hst with h | h
      · subst h; exact hcond.1
      · exact ih (s + 1) next t h hlt
    · omega

theorem findStart_ge (ords : List Nat) (s next : Nat) : s ≤ findStart ords s next :=
  findStartF_ge ords _ s next

theorem findStart_le (ords : List Nat) (s next : Nat) (h : s ≤ next) :
    findStart ords s next ≤ next :=
  findStartF_le ords _ s next h

theorem findStart_mem (ords : List Nat) (s next : Nat) :
    findStart ords s next ∈ ords ∨ next ≤ findStart ords s next :=
  findStartF_mem ords _ s next (by omega)

theorem findStart_not_mem (ords : List Nat) (s next t : Nat) (h1 : s ≤ t)
    (h2 : t < findStart ords s next) : t ∉ ords :=
  findStartF_not_mem ords _ s next t h1 h2

/-- Transfer a pairwise relation through `filterMap`. -/
theorem pairwise_filterMap_of {α β : Type} {R : α → α → Prop} {S : β → β → Prop}
    (f : α → Option β)
    (h : ∀ a a', R a a' → ∀ b, f a = some b → ∀ b', f a' = some b' → S b b')
    (l : List α) (hl : l.Pairwise R) : (l.filterMap f).Pairwise S := by
  rw [List.pairwise_filterMap]
  refine hl.imp ?_
  intro a a' hr b hb b' hb'
  exact h a a' hr b (by simpa using hb) b' (by simpa using hb')

/- ### Calendar lemmas -/

/-- 1 when the year is a leap year, else 0. -/
def leapBit (y : Nat) : Nat := if isLeap y then 1 else 0

theorem isLeap_true_iff (y : Nat) :
    isLeap y = true ↔ ((y % 4 = 0 ∧ ¬ y % 100 = 0) ∨ y % 400 = 0) := by
  simp [isLeap, Bool.or_eq_true, Bool.and_eq_true]

theorem leapBit_cases (y : Nat) :
    (((y % 4 = 0 ∧ ¬ y % 100 = 0) ∨ y % 400 = 0) ∧ leapBit y = 1) ∨
    (¬ ((y % 4 = 0 ∧ ¬ y % 100 = 0) ∨ y % 400 = 0) ∧ leapBit y = 0) := by
  by_cases h : isLeap y = true
  · left; exact ⟨(isLeap_true_iff y).mp h, by simp [leapBit, h]⟩
  · right
    refine ⟨fun hc => h ((isLeap_true_iff y).mpr hc), ?_⟩
    simp [leapBit, Bool.of_not_eq_true h]

theorem leapsBefore_succ (y : Nat) :
    leapsBefore (y + 1) = leapsBefore y + leapBit (y + 1) := by
  have h4 := Nat.succ_div y 4
  have h100 := Nat.succ_div y 100
  have h400 := Nat.succ_div y 400
  simp only [Nat.dvd_iff_mod_eq_zero] at h4 h100 h400
  rcases leapBit_cases (y + 1) with ⟨hc, hb⟩ | ⟨hc, hb⟩ <;>
  · unfold leapsBefore
    rw [hb, h4, h100, h400]
    by_cases c4 : (y + 1) % 4 = 0 <;> by_cases c100 : (y + 1) % 100 = 0 <;>
      by_cases c400 : (y + 1) % 400 = 0 <;> simp [c4, c100, c400] <;> omega

theorem daysBeforeMonth_succ (y m : Nat) (h : 1 ≤ m) :
    daysBeforeMonth y (m + 1) = daysBeforeMonth y m + monthLen y m := by
  cases m with
  | zero => omega
  | succ k => rfl

theorem daysBeforeMonth_twelve (y : Nat) :
    daysBeforeMonth y 12 = 334 + leapBit y := by
  show daysBeforeMonth y (10 + 2) = 334 + leapBit y
  cases h : isLeap y <;>
    simp [daysBeforeMonth, monthLen, leapBit, h]

/-- `toOrdinal` of the first day of the month with linear index `i`. -/
def monthStart (i : Nat) : Nat := Date.toOrdinal ⟨i / 12 + 1, i % 12 + 1, 1⟩

theorem monthStart_step (i : Nat) :
    monthStart (i + 1) = monthStart i + monthLen (i / 12 + 1) (i % 12 + 1) := by
  by_cases h : i % 12 = 11
  · have h1 : (i + 1) / 12 = i / 12 + 1 := by omega
    have h2 : (i + 1) % 12 = 0 := by omega
    unfold monthStart Date.toOrdinal
    rw [h1, h2, h]
    have hml : monthLen (i / 12 + 1) (11 + 1) = 31 := rfl
    have h12 : daysBeforeMonth (i / 12 + 1) 12 = 334 + leapBit (i / 12 + 1) :=
      daysBeforeMonth_twelve _
    have hls : leapsBefore (i / 12 + 1) = leapsBefore (i / 12) + leapBit (i / 12 + 1) :=
      leapsBefore_succ _
    have hd0 : daysBeforeMonth (i / 12 + 1 + 1) (0 + 1) = 0 := rfl
    simp only [hml, hd0]
    have e1 : i / 12 + 1 + 1 - 1 = i / 12 + 1 := by omega
    have e2 : i / 12 + 1 - 1 = i / 12 := by omega
    rw [e1, e2, hls]
    have h12' : daysBeforeMonth (i / 12 + 1) (11 + 1) = 334 + leapBit (i / 12 + 1) := h12
    rw [h12']
    ring
  · have h1 : (i + 1) / 12 = i / 12 := by omega
    have h2 : (i + 1) % 12 = i % 12 + 1 := by omega
    unfold monthStart Date.toOrdinal
    rw [h1, h2]
    have hd : daysBeforeMonth (i / 12 + 1) (i % 12 + 1 + 1) =
        daysBeforeMonth (i / 12 + 1) (i % 12 + 1) + monthLen (i / 12 + 1) (i % 12 + 1) :=
      daysBeforeMonth_succ _ _ (by omega)
    rw [hd]
    ring

theorem monthStart_mono : ∀ {i j : Nat}, i ≤ j → monthStart i ≤ monthStart j := by
  intro i j h
  induction j with
  | zero =>
    have h0 : i = 0 := Nat.le_zero.mp h
    subst h0; exact le_refl _
  | succ n ih =>
    rcases Nat.lt_succ_iff_lt_or_eq.mp (Nat.lt_succ_of_le h) with h1 | h1
    · have := ih (Nat.lt_succ_iff.mp h1)
      rw [monthStart_step n]
      omega
    · subst h1; exact le_refl _

theorem monthLen_pos (y m : Nat) (h1 : 1 ≤ m) (h2 : m ≤ 12) : 1 ≤ monthLen y m := by
  interval_cases m <;> simp [monthLen]
  split <;> omega

theorem monthIdx_div (d : Date) (hv : ValidDate d) :
    monthIdx d / 12 + 1 = d.year ∧ monthIdx d % 12 + 1 = d.month := by
  obtain ⟨hy, hm1, hm2, _, _⟩ := hv
  unfold monthIdx
  constructor <;> omega

theorem toOrdinal_eq_monthStart (d : Date) (hv : ValidDate d) :
    d.toOrdinal = monthStart (monthIdx d) + d.day - 1 := by
  obtain ⟨hy, hm1, hm2, hd1, hd2⟩ := hv
  unfold monthStart Date.toOrdinal
  dsimp only
  have h1 : monthIdx d / 12 = d.year - 1 := by unfold monthIdx; omega
  have h2 : monthIdx d % 12 = d.month - 1 := by unfold monthIdx; omega
  rw [h1, h2]
  have h3 : d.year - 1 + 1 = d.year := by omega
  have h4 : d.month - 1 + 1 = d.month := by omega
  rw [h3, h4]
  omega

theorem toOrdinal_lt_next_monthStart (d : Date) (hv : ValidDate d) :
    d.toOrdinal < monthStart (monthIdx d + 1) := by
  have he := toOrdinal_eq_monthStart d hv
  have hs := monthStart_step (monthIdx d)
  obtain ⟨h1, h2⟩ := monthIdx_div d hv
  rw [h1, h2] at hs
  have hday2 := hv.2.2.2.2
  have hday1 := hv.2.2.2.1
  generalize hA : monthStart (monthIdx d) = A at he hs
  generalize hB : monthStart (monthIdx d + 1) = B at hs ⊢
  generalize hC : Date.toOrdinal d = C at he ⊢
  generalize hD : monthLen d.year d.month = D at hs hday2
  omega

theorem monthStart_le_toOrdinal (d : Date) (hv : ValidDate d) :
    monthStart (monthIdx d) ≤ d.toOrdinal := by
  have he := toOrdinal_eq_monthStart d hv
  have hday1 := hv.2.2.2.1
  generalize hA : monthStart (monthIdx d) = A at he ⊢
  generalize hC : Date.toOrdinal d = C at he ⊢
  omega

/-- Dates of strictly earlier calendar months have strictly smaller ordinals. -/
theorem toOrdinal_lt_of_monthIdx_lt {a b : Date} (ha : ValidDate a) (hb : ValidDate b)
    (h : monthIdx a < monthIdx b) : a.toOrdinal < b.toOrdinal := by
  have h1 := toOrdinal_lt_next_monthStart a ha
  have h2 : monthStart (monthIdx a + 1) ≤ monthStart (monthIdx b) := monthStart_mono h
  have h3 := monthStart_le_toOrdinal b hb
  omega

/-- An ordinal-later (or equal) date in a different month number lies in a
strictly later calendar month. -/
theorem monthIdx_lt_of_le_of_month_ne {a b : Date} (ha : ValidDate a) (hb : ValidDate b)
    (hord : a.toOrdinal ≤ b.toOrdinal) (hm : a.month ≠ b.month) :
    monthIdx a < monthIdx b := by
  have hne : monthIdx a ≠ monthIdx b := by
    intro heq
    apply hm
    obtain ⟨hy, hm1, hm2, _, _⟩ := ha
    obtain ⟨hy', hm1', hm2', _, _⟩ := hb
    unfold monthIdx at heq
    omega
  rcases Nat.lt_or_ge (monthIdx a) (monthIdx b) with h | h
  · exact h
  · have hlt : monthIdx b < monthIdx a := by omega
    have := toOrdinal_lt_of_monthIdx_lt hb ha hlt
    omega

/- ### The last-Thursday scan and the monthly expiry list -/

theorem lastThursdayAux_spec (y m : Nat) :
    ∀ (n : Nat) (e : Date), NiftyMonthly.lastThursdayAux y m n = some e →
      e.year = y ∧ e.month = m ∧ 1 ≤ e.day ∧ e.day ≤ n ∧ e.weekday = 3 ∧
      ∀ d, e.day < d → d ≤ n → Date.weekday ⟨y, m, d⟩ ≠ 3 := by
  intro n
  induction n with
  | zero => intro e he; simp [NiftyMonthly.lastThursdayAux] at he
  | succ k ih =>
    intro e he
    rw [NiftyMonthly.lastThursdayAux] at he
    split at he
    · next hwd =>
      have heq : (⟨y, m, k + 1⟩ : Date) = e := by injection he
      subst heq
      refine ⟨rfl, rfl, Nat.succ_le_succ (Nat.zero_le k), le_refl _, hwd, ?_⟩
      intro d hd1 hd2
      exact (Nat.lt_irrefl _ (Nat.lt_of_lt_of_le hd1 hd2)).elim
    · next hwd =>
      obtain ⟨h1, h2, h3, h4, h5, h6⟩ := ih e he
      refine ⟨h1, h2, h3, le_trans h4 (Nat.le_succ k), h5, ?_⟩
      intro d hd1 hd2
      rcases Nat.eq_or_lt_of_le hd2 with h | h
      · have hd : d = k + 1 := h
        subst hd
        exact hwd
      · exact h6 d hd1 (Nat.lt_succ_iff.mp h)

theorem monthlyAux_mem (dates : List Date) :
    ∀ (ts : List Date) (cur : Option Nat) (e : Date),
      e ∈ NiftyMonthly.monthlyAux dates cur ts →
      e ∈ dates ∧ ∃ t ∈ ts, NiftyMonthly.lastThursday t.year t.month = some e := by
  intro ts
  induction ts with
  | nil => intro cur e he; simp [NiftyMonthly.monthlyAux] at he
  | cons t rest ih =>
    intro cur e he
    rw [NiftyMonthly.monthlyAux] at he
    split at he
    · obtain ⟨h1, t', ht', h2⟩ := ih cur e he
      exact ⟨h1, t', List.mem_cons_of_mem t ht', h2⟩
    · split at he
      · next lt heq =>
        rcases List.mem_append.mp he with h | h
        · split at h
          · next hmem =>
            simp only [List.mem_singleton] at h
            subst h
            exact ⟨hmem, t, List.mem_cons_self t rest, heq⟩
          · simp at h
        · obtain ⟨h1, t', ht', h2⟩ := ih _ e h
          exact ⟨h1, t', List.mem_cons_of_mem t ht', h2⟩
      · obtain ⟨h1, t', ht', h2⟩ := ih _ e he
        exact ⟨h1, t', List.mem_cons_of_mem t ht', h2⟩

theorem monthlyAux_props (dates : List Date) :
    ∀ (ts : List Date) (m0 : Date), ValidDate m0 →
      (∀ t ∈ ts, ValidDate t ∧ m0.toOrdinal ≤ t.toOrdinal) →
      ts.Pairwise (fun a b => a.toOrdinal ≤ b.toOrdinal) →
      (∀ e ∈ NiftyMonthly.monthlyAux dates (some m0.month) ts,
        ValidDate e ∧ monthIdx m0 < monthIdx e) ∧
      (NiftyMonthly.monthlyAux dates (some m0.month) ts).Pairwise
        (fun a b => monthIdx a < monthIdx b) := by
  intro ts
  induction ts with
  | nil =>
    intro m0 _ _ _
    constructor
    · intro e he; simp [NiftyMonthly.monthlyAux] at he
    · simp [NiftyMonthly.monthlyAux]
  | cons t rest ih =>
    intro m0 hv0 hts hp
    have hvt := (hts t (List.mem_cons_self t rest)).1
    have hot := (hts t (List.mem_cons_self t rest)).2
    have hrest0 : ∀ x ∈ rest, ValidDate x ∧ m0.toOrdinal ≤ x.toOrdinal :=
      fun x hx => hts x (List.mem_cons_of_mem t hx)
    rw [NiftyMonthly.monthlyAux]
    split
    · exact ih m0 hv0 hrest0 hp.of_cons
    · next hne =>
      have hmne : t.month ≠ m0.month := by
        intro h; exact hne (by rw [h])
      have hidx : monthIdx m0 < monthIdx t :=
        monthIdx_lt_of_le_of_month_ne hv0 hvt hot (fun h => hmne h.symm)
      have hrest : ∀ x ∈ rest, ValidDate x ∧ t.toOrdinal ≤ x.toOrdinal := by
        intro x hx
        exact ⟨(hts x (List.mem_cons_of_mem t hx)).1, (List.pairwise_cons.mp hp).1 x hx⟩
      have ihr := ih t hvt hrest hp.of_cons
      split
      · next lt heq =>
        have hspec := lastThursdayAux_spec t.year t.month (monthLen t.year t.month) lt heq
        obtain ⟨hy, hm, hd1, hd2, hw, hlast⟩ := hspec
        have hvlt : ValidDate lt := by
          refine ⟨?_, ?_, ?_, hd1, ?_⟩
          · rw [hy]; exact hvt.1
          · rw [hm]; exact hvt.2.1
          · rw [hm]; exact hvt.2.2.1
          · rw [hy, hm]; exact hd2
        have hidxlt : monthIdx lt = monthIdx t := by
          unfold monthIdx; rw [hy, hm]
        constructor
        · intro e he
          rcases List.mem_append.mp he with h | h
          · split at h
            · simp only [List.mem_singleton] at h
              subst h
              exact ⟨hvlt, by rw [hidxlt]; exact hidx⟩
            · simp at h
          · have hr := ihr.1 e h
            exact ⟨hr.1, lt_trans hidx hr.2⟩
        · apply List.pairwise_append.mpr
          refine ⟨?_, ihr.2, ?_⟩
          · split
            · simp
            · simp
          · intro a ha b hb
            split at ha
            · simp only [List.mem_singleton] at ha
              subst ha
              rw [hidxlt]
              exact (ihr.1 b hb).2
            · simp at ha
      · constructor
        · intro e he
          have hr := ihr.1 e he
          exact ⟨hr.1, lt_trans hidx hr.2⟩
        · exact ihr.2

theorem monthlyAux_none_props (dates : List Date) (ts : List Date)
    (hts : ∀ t ∈ ts, ValidDate t)
    (hp : ts.Pairwise (fun a b => a.toOrdinal ≤ b.toOrdinal)) :
    (∀ e ∈ NiftyMonthly.monthlyAux dates none ts, ValidDate e) ∧
    (NiftyMonthly.monthlyAux dates none ts).Pairwise
      (fun a b => monthIdx a < monthIdx b) := by
  cases ts with
  | nil =>
    constructor
    · intro e he; simp [NiftyMonthly.monthlyAux] at he
    · simp [NiftyMonthly.monthlyAux]
  | cons t rest =>
    have hvt := hts t (List.mem_cons_self t rest)
    have hrest : ∀ x ∈ rest, ValidDate x ∧ t.toOrdinal ≤ x.toOrdinal := by
      intro x hx
      exact ⟨hts x (List.mem_cons_of_mem t hx), (List.pairwise_cons.mp hp).1 x hx⟩
    have ihr := monthlyAux_props dates rest t hvt hrest hp.of_cons
    rw [NiftyMonthly.monthlyAux]
    split
    · next heq => simp at heq
    · split
      · next lt heq =>
        have hspec := lastThursdayAux_spec t.year t.month (monthLen t.year t.month) lt heq
        obtain ⟨hy, hm, hd1, hd2, hw, hlast⟩ := hspec
        have hvlt : ValidDate lt := by
          refine ⟨?_, ?_, ?_, hd1, ?_⟩
          · rw [hy]; exact hvt.1
          · rw [hm]; exact hvt.2.1
          · rw [hm]; exact hvt.2.2.1
          · rw [hy, hm]; exact hd2
        have hidxlt : monthIdx lt = monthIdx t := by
          unfold monthIdx; rw [hy, hm]
        constructor
        · intro e he
          rcases List.mem_append.mp he with h | h
          · split at h
            · simp only [List.mem_singleton] at h
              subst h
              exact hvlt
            · simp at h
          · exact (ihr.1 e h).1
        · apply List.pairwise_append.mpr
          refine ⟨?_, ihr.2, ?_⟩
          · split
            · simp
            · simp
          · intro a ha b hb
            split at ha
            · simp only [List.mem_singleton] at ha
              subst ha
              rw [hidxlt]
              exact (ihr.1 b hb).2
            · simp at ha
      · exact ⟨fun e he => (ihr.1 e he).1, ihr.2⟩

theorem thursdaysOf_valid (s : List NBar) (hv : ∀ b ∈ s, ValidDate b.date) :
    ∀ t ∈ NiftyWeekly.thursdaysOf s, ValidDate t := by
  intro t ht
  unfold NiftyWeekly.thursdaysOf at ht
  obtain ⟨b, hb, rfl⟩ := List.mem_map.mp (List.mem_of_mem_filter ht)
  exact hv b hb

theorem thursdaysOf_sorted (s : List NBar)
    (hs : s.Pairwise (fun a b => a.date.toOrdinal < b.date.toOrdinal)) :
    (NiftyWeekly.thursdaysOf s).Pairwise (fun a b => a.toOrdinal < b.toOrdinal) := by
  unfold NiftyWeekly.thursdaysOf
  apply List.Pairwise.filter
  rw [List.pairwise_map]
  exact hs

theorem get_monthly_expiry_dates_props (s : List NBar)
    (hv : ∀ b ∈ s, ValidDate b.date)
    (hs : s.Pairwise (fun a b => a.date.toOrdinal < b.date.toOrdinal)) :
    (∀ e ∈ NiftyMonthly.get_monthly_expiry_dates s, ValidDate e) ∧
    (NiftyMonthly.get_monthly_expiry_dates s).Pairwise
      (fun a b => a.toOrdinal < b.toOrdinal) := by
  unfold NiftyMonthly.get_monthly_expiry_dates
  have h1 := thursdaysOf_valid s hv
  have h2 : (NiftyWeekly.thursdaysOf s).Pairwise (fun a b => a.toOrdinal ≤ b.toOrdinal) :=
    (thursdaysOf_sorted s hs).imp (fun h => le_of_lt h)
  have hprops := monthlyAux_none_props (s.map (fun b => b.date))
    (NiftyWeekly.thursdaysOf s) h1 h2
  refine ⟨hprops.1, ?_⟩
  exact List.Pairwise.imp_of_mem
    (fun ha hb hidx => toOrdinal_lt_of_monthIdx_lt (hprops.1 _ ha) (hprops.1 _ hb) hidx)
    hprops.2

/- ### Windows of the expiry scripts: position and disjointness -/

theorem weeklyAux_start_gt (s : List NBar) :
    ∀ (e0 : Date) (rest : List Date),
      (e0 :: rest).Pairwise (fun a b => a.toOrdinal ≤ b.toOrdinal) →
      ∀ r ∈ NiftyWeekly.weeklyAux s (e0 :: rest), e0.toOrdinal < r.period_start := by
  intro e0 rest
  induction rest generalizing e0 with
  | nil => intro _ r hr; simp [NiftyWeekly.weeklyAux] at hr
  | cons e1 rest2 ih =>
    intro hp r hr
    rw [NiftyWeekly.weeklyAux] at hr
    rcases List.mem_append.mp hr with h | h
    · split at h
      · simp at h
      · simp only [List.mem_singleton] at h
        subst h
        simp only [NiftyWeekly.mkWeekly]
        have := findStart_ge (NiftyWeekly.ordsOf s) (e0.toOrdinal + 1) e1.toOrdinal
        omega
    · have h01 : e0.toOrdinal ≤ e1.toOrdinal :=
        (List.pairwise_cons.mp hp).1 e1 (List.mem_cons_self e1 rest2)
      exact lt_of_le_of_lt h01 (ih e1 hp.of_cons r h)

theorem weeklyAux_pairwise (s : List NBar) :
    ∀ (es : List Date), es.Pairwise (fun a b => a.toOrdinal ≤ b.toOrdinal) →
      (NiftyWeekly.weeklyAux s es).Pairwise
        (fun r1 r2 => r1.period_end < r2.period_start) := by
  intro es
  induction es with
  | nil => intro _; simp [NiftyWeekly.weeklyAux]
  | cons e0 tail ih =>
    intro hp
    cases tail with
    | nil => simp [NiftyWeekly.weeklyAux]
    | cons e1 rest2 =>
      rw [NiftyWeekly.weeklyAux]
      apply List.pairwise_append.mpr
      refine ⟨?_, ih hp.of_cons, ?_⟩
      · split
        · simp
        · simp
      · intro a ha b hb
        have hb' : e1.toOrdinal < b.period_start :=
          weeklyAux_start_gt s e1 rest2 hp.of_cons b hb
        split at ha
        · simp at ha
        · simp only [List.mem_singleton] at ha
          subst ha
          simp only [NiftyWeekly.mkWeekly]
          exact hb'

theorem monthlyWindows_start_gt (s : List NBar) :
    ∀ (e0 : Date) (rest : List Date),
      (e0 :: rest).Pairwise (fun a b => a.toOrdinal ≤ b.toOrdinal) →
      ∀ r ∈ NiftyMonthly.monthlyWindows s (e0 :: rest), e0.toOrdinal < r.period_start := by
  intro e0 rest
  induction rest generalizing e0 with
  | nil => intro _ r hr; simp [NiftyMonthly.monthlyWindows] at hr
  | cons e1 rest2 ih =>
    intro hp r hr
    rw [NiftyMonthly.monthlyWindows] at hr
    rcases List.mem_append.mp hr with h | h
    · split at h
      · simp at h
      · simp only [List.mem_singleton] at h
        subst h
        simp only [NiftyMonthly.mkMonthly]
        have := findStart_ge (NiftyWeekly.ordsOf s) (e0.toOrdinal + 1) e1.toOrdinal
        omega
    · have h01 : e0.toOrdinal ≤ e1.toOrdinal :=
        (List.pairwise_cons.mp hp).1 e1 (List.mem_cons_self e1 rest2)
      exact lt_of_le_of_lt h01 (ih e1 hp.of_cons r h)

theorem monthlyWindows_pairwise (s : List NBar) :
    ∀ (es : List Date), es.Pairwise (fun a b => a.toOrdinal ≤ b.toOrdinal) →
      (NiftyMonthly.monthlyWindows s es).Pairwise
        (fun r1 r2 => r1.period_end < r2.period_start) := by
  intro es
  induction es with
  | nil => intro _; simp [NiftyMonthly.monthlyWindows]
  | cons e0 tail ih =>
    intro hp
    cases tail with
    | nil => simp [NiftyMonthly.monthlyWindows]
    | cons e1 rest2 =>
      rw [NiftyMonthly.monthlyWindows]
      apply List.pairwise_append.mpr
      refine ⟨?_, ih hp.of_cons, ?_⟩
      · split
        · simp
        · simp
      · intro a ha b hb
        have hb' : e1.toOrdinal < b.period_start :=
          monthlyWindows_start_gt s e1 rest2 hp.of_cons b hb
        split at ha
        · simp at ha
        · simp only [List.mem_singleton] at ha
          subst ha
          simp only [NiftyMonthly.mkMonthly]
          exact hb'

theorem weeklyAux_mem_spec (s : List NBar) :
    ∀ (es : List Date), es.Pairwise (fun a b => a.toOrdinal < b.toOrdinal) →
      ∀ r ∈ NiftyWeekly.weeklyAux s es,
        ∃ i, ∃ h1 : i + 1 < es.length,
          r.expiry_date = (es.get ⟨i, Nat.lt_of_succ_lt h1⟩).toOrdinal ∧
          r.period_end = (es.get ⟨i + 1, h1⟩).toOrdinal ∧
          r.expiry_date < r.period_start ∧
          r.period_start ≤ r.period_end ∧
          (r.period_start ∈ NiftyWeekly.ordsOf s ∨ r.period_start = r.period_end) ∧
          (∀ t, r.expiry_date < t → t < r.period_start → t ∉ NiftyWeekly.ordsOf s) ∧
          r.trading_days = (NiftyWeekly.periodSlice s r.period_start r.period_end).length ∧
          3 ≤ r.trading_days := by
  intro es
  induction es with
  | nil => intro _ r hr; simp [NiftyWeekly.weeklyAux] at hr
  | cons e0 tail ih =>
    intro hp r hr
    cases tail with
    | nil => simp [NiftyWeekly.weeklyAux] at hr
    | cons e1 rest2 =>
      rw [NiftyWeekly.weeklyAux] at hr
      rcases List.mem_append.mp hr with h | h
      · split at h
        · simp at h
        · next hc =>
          simp only [List.mem_singleton] at h
          subst h
          have h01 : e0.toOrdinal < e1.toOrdinal :=
            (List.pairwise_cons.mp hp).1 e1 (List.mem_cons_self e1 rest2)
          have hge := findStart_ge (NiftyWeekly.ordsOf s) (e0.toOrdinal + 1) e1.toOrdinal
          have hle := findStart_le (NiftyWeekly.ordsOf s) (e0.toOrdinal + 1) e1.toOrdinal
            (by omega)
          have hmem := findStart_mem (NiftyWeekly.ordsOf s) (e0.toOrdinal + 1) e1.toOrdinal
          have hnm := findStart_not_mem (NiftyWeekly.ordsOf s) (e0.toOrdinal + 1) e1.toOrdinal
          refine ⟨0, by simp, ?_, ?_, ?_, ?_, ?_, ?_, ?_, ?_⟩
          · simp [NiftyWeekly.mkWeekly]
          · simp [NiftyWeekly.mkWeekly]
          · simp only [NiftyWeekly.mkWeekly]
            omega
          · simp only [NiftyWeekly.mkWeekly]
            exact hle
          · simp only [NiftyWeekly.mkWeekly]
            rcases hmem with hm | hm
            · exact Or.inl hm
            · exact Or.inr (le_antisymm hle hm)
          · simp only [NiftyWeekly.mkWeekly]
            intro t ht1 ht2
            exact hnm t (by omega) ht2
          · simp [NiftyWeekly.mkWeekly]
          · simp only [NiftyWeekly.mkWeekly]
            omega
      · obtain ⟨i, h1, hrest⟩ := ih hp.of_cons r h
        exact ⟨i + 1, by simpa using Nat.succ_lt_succ h1, hrest⟩

theorem weeklyAux_mem_shape (s : List NBar) :
    ∀ (es : List Date), ∀ r ∈ NiftyWeekly.weeklyAux s es,
      ∃ e1 e2 start,
        r = NiftyWeekly.mkWeekly e1 start e2
          (NiftyWeekly.periodSlice s start e2.toOrdinal) ∧
        ¬ (NiftyWeekly.periodSlice s start e2.toOrdinal).length < 3 := by
  intro es
  induction es with
  | nil => intro r hr; simp [NiftyWeekly.weeklyAux] at hr
  | cons e0 tail ih =>
    intro r hr
    cases tail with
    | nil => simp [NiftyWeekly.weeklyAux] at hr
    | cons e1 rest2 =>
      rw [NiftyWeekly.weeklyAux] at hr
      rcases List.mem_append.mp hr with h | h
      · split at h
        · simp at h
        · next hc =>
          simp only [List.mem_singleton] at h
          subst h
          exact ⟨e0, e1, _, rfl, hc⟩
      · exact ih r h

theorem monthlyWindows_mem_shape (s : List NBar) :
    ∀ (es : List Date), ∀ r ∈ NiftyMonthly.monthlyWindows s es,
      ∃ e1 e2 start,
        r = NiftyMonthly.mkMonthly e1 start e2
          (NiftyWeekly.periodSlice s start e2.toOrdinal) ∧
        ¬ (NiftyWeekly.periodSlice s start e2.toOrdinal).length < 5 := by
  intro es
  induction es with
  | nil => intro r hr; simp [NiftyMonthly.monthlyWindows] at hr
  | cons e0 tail ih =>
    intro r hr
    cases tail with
    | nil => simp [NiftyMonthly.monthlyWindows] at hr
    | cons e1 rest2 =>
      rw [NiftyMonthly.monthlyWindows] at hr
      rcases List.mem_append.mp hr with h | h
      · split at h
        · simp at h
        · next hc =>
          simp only [List.mem_singleton] at h
          subst h
          exact ⟨e0, e1, _, rfl, hc⟩
      · exact ih r h

/- ### Concrete inputs used by witnesses and counterexamples -/

/-- A daily Nifty bar with Open 100, High 110, Low 95, Price (close) 105. -/
def demoNBar (y m d : Nat) : NBar := ⟨⟨y, m, d⟩, 100, 110, 95, 105, 0⟩

/-- A minute bar with Open 100, High 110, Low 95, Close 100. -/
def demoMBar (t : Nat) : MBar := ⟨t, 100, 110, 95, 100⟩

/-- Eleven minute bars inside the 06:30 session of day 0. -/
def demoSession : List MBar := (List.range 11).map (fun i => demoMBar (390 + i))

/-- Twelve minute bars inside the 18:30 session of day 0; the first closes
at 100 and the later ones at 105, so the session's net change is positive. -/
def demoFluct : List MBar :=
  demoMBar 1110 :: (List.range 11).map (fun i => (⟨1111 + i, 100, 110, 95, 105⟩ : MBar))

/-- Eleven minute bars inside the Thursday-12:00 week window of day 0
(day 0 of the Unix epoch is a Thursday). -/
def demoEth : List MBar := (List.range 11).map (fun i => demoMBar (720 + i))

/-- Thursday 2024-01-04, then trading days up to the next Thursday
2024-01-11, with a weekend gap and one holiday (2024-01-09). -/
def demoWeekly : List NBar :=
  [demoNBar 2024 1 4, demoNBar 2024 1 5, demoNBar 2024 1 8,
   demoNBar 2024 1 10, demoNBar 2024 1 11]

/-- Thursday bars covering January and February 2024, containing both
calendar-last Thursdays (2024-01-25 and 2024-02-29). -/
def demoMonthly : List NBar :=
  [demoNBar 2024 1 4, demoNBar 2024 1 25, demoNBar 2024 2 1, demoNBar 2024 2 8,
   demoNBar 2024 2 15, demoNBar 2024 2 22, demoNBar 2024 2 29]

/-- A series with exactly two bars in a single 06:30 session window. -/
def demoTwoBars : List MBar := [demoMBar 390, demoMBar 391]

/-- The single row the 06:30 script emits on `demoSession`. -/
def demoSessionRow : BtcFilter.SessionResult :=
  BtcFilter.aggregate 0 (BtcFilter.sessionSlice demoSession 0)

/-- The single row the 18:30 script emits on `demoFluct`. -/
def demoFluctRow : BtcFluct.FluctResult :=
  BtcFluct.aggregate 0 (BtcFluct.sessionSlice demoFluct 0)

/-- The single row the ETH weekly script emits on `demoEth`. -/
def demoEthRow : EthWeekly.WeekResult :=
  EthWeekly.aggregate 0 (EthWeekly.weekSlice demoEth 0)

/-- The single row the weekly-expiry script emits on `demoWeekly`;
738890 is the ordinal of 2024-01-05 and 738896 of 2024-01-11. -/
def demoWeeklyRow : NiftyWeekly.WeeklyResult :=
  NiftyWeekly.mkWeekly ⟨2024, 1, 4⟩ 738890 ⟨2024, 1, 11⟩
    (NiftyWeekly.periodSlice demoWeekly 738890 738896)

/-- The single row the monthly-expiry script emits on `demoMonthly`;
738917 is the ordinal of 2024-02-01 and 738945 of 2024-02-29. -/
def demoMonthlyRow : NiftyMonthly.MonthlyResult :=
  NiftyMonthly.mkMonthly ⟨2024, 1, 25⟩ 738917 ⟨2024, 2, 29⟩
    (NiftyWeekly.periodSlice demoMonthly 738917 738945)

/-- Slice for the concrete Fixed-Daily-Session scenario: bars whose
extremes give open 100, high 110, low 95, close 105. -/
def demoC4Slice : List MBar := [⟨390, 100, 100, 98, 100⟩, ⟨391, 100, 110, 95, 105⟩]

/- ### Evaluation lemmas for the demo inputs -/

theorem uniqueKeep_nil_eq : uniqueKeep [] = [] := by rw [uniqueKeep]

theorem weeklyAux_cons (s : List NBar) (e1 e2 : Date) (rest : List Date) :
    NiftyWeekly.weeklyAux s (e1 :: e2 :: rest) =
      (let start := findStart (NiftyWeekly.ordsOf s) (e1.toOrdinal + 1) e2.toOrdinal
       let slice := NiftyWeekly.periodSlice s start e2.toOrdinal
       if slice.length < 3 then [] else [NiftyWeekly.mkWeekly e1 start e2 slice]) ++
      NiftyWeekly.weeklyAux s (e2 :: rest) := rfl

theorem weeklyAux_one (s : List NBar) (e : Date) : NiftyWeekly.weeklyAux s [e] = [] := by
  simp [NiftyWeekly.weeklyAux]

theorem monthlyWindows_cons (s : List NBar) (e1 e2 : Date) (rest : List Date) :
    NiftyMonthly.monthlyWindows s (e1 :: e2 :: rest) =
      (let start := findStart (NiftyWeekly.ordsOf s) (e1.toOrdinal + 1) e2.toOrdinal
       let slice := NiftyWeekly.periodSlice s start e2.toOrdinal
       if slice.length < 5 then [] else [NiftyMonthly.mkMonthly e1 start e2 slice]) ++
      NiftyMonthly.monthlyWindows s (e2 :: rest) := rfl

theorem monthlyWindows_one (s : List NBar) (e : Date) :
    NiftyMonthly.monthlyWindows s [e] = [] := by
  simp [NiftyMonthly.monthlyWindows]

theorem demoSession_unique : BtcFilter.unique_dates demoSession = [0] := by
  have hm : demoSession.map (fun b => b.ts / 1440) =
      [0, 0, 0, 0, 0, 0, 0, 0, 0, 0, 0] := by decide
  unfold BtcFilter.unique_dates
  rw [hm, uniqueKeep]
  have hf : ([0, 0, 0, 0, 0, 0, 0, 0, 0, 0] : List Nat).filter (fun x => x != 0) = [] := by
    decide
  rw [hf, uniqueKeep_nil_eq]

theorem demoSession_results : BtcFilter.sessionResults demoSession = [demoSessionRow] := by
  unfold BtcFilter.sessionResults
  rw [demoSession_unique]
  simp only [List.filterMap_cons, List.filterMap_nil]
  rw [if_pos (by decide : 10 < (BtcFilter.sessionSlice demoSession 0).length)]
  rfl

theorem demoFluct_unique : uniqueKeep (demoFluct.map (fun b => b.ts / 1440)) = [0] := by
  have hm : demoFluct.map (fun b => b.ts / 1440) =
      [0, 0, 0, 0, 0, 0, 0, 0, 0, 0, 0, 0] := by decide
  rw [hm, uniqueKeep]
  have hf : ([0, 0, 0, 0, 0, 0, 0, 0, 0, 0, 0] : List Nat).filter (fun x => x != 0) = [] := by
    decide
  rw [hf, uniqueKeep_nil_eq]

theorem demoFluct_results : BtcFluct.sessionResults demoFluct = [demoFluctRow] := by
  unfold BtcFluct.sessionResults
  rw [demoFluct_unique]
  simp only [List.filterMap_cons, List.filterMap_nil]
  rw [if_pos (by decide : 10 < (BtcFluct.sessionSlice demoFluct 0).length)]
  rfl

theorem demoEth_thursdays : EthWeekly.thursdayDays demoEth = [0] := by
  have hm : (demoEth.filter (fun b => (b.ts / 1440 + 3) % 7 == 3)).map
      (fun b => b.ts / 1440) = [0, 0, 0, 0, 0, 0, 0, 0, 0, 0, 0] := by decide
  unfold EthWeekly.thursdayDays
  rw [hm, uniqueKeep]
  have hf : ([0, 0, 0, 0, 0, 0, 0, 0, 0, 0] : List Nat).filter (fun x => x != 0) = [] := by
    decide
  rw [hf, uniqueKeep_nil_eq]

theorem demoEth_results : EthWeekly.weeklyResults demoEth = [demoEthRow] := by
  unfold EthWeekly.weeklyResults
  rw [demoEth_thursdays]
  simp only [List.filterMap_cons, List.filterMap_nil]
  rw [if_pos (by decide : 10 < (EthWeekly.weekSlice demoEth 0).length)]
  rfl

theorem demoWeekly_results : NiftyWeekly.weeklyResults demoWeekly = [demoWeeklyRow] := by
  have ht : NiftyWeekly.thursdaysOf demoWeekly = [⟨2024, 1, 4⟩, ⟨2024, 1, 11⟩] := by decide
  unfold NiftyWeekly.weeklyResults
  rw [ht, weeklyAux_cons, weeklyAux_one]
  rw [if_neg (by decide)]
  rfl

theorem demoMonthly_results : NiftyMonthly.monthlyResults demoMonthly = [demoMonthlyRow] := by
  have he : NiftyMonthly.get_monthly_expiry_dates demoMonthly =
      [⟨2024, 1, 25⟩, ⟨2024, 2, 29⟩] := by decide
  unfold NiftyMonthly.monthlyResults
  rw [he, monthlyWindows_cons, monthlyWindows_one]
  rw [if_neg (by decide)]
  rfl

/- ### Small helpers for the claim theorems -/

theorem ite_up_down (c : Prop) [Decidable c] :
    ((if c then ("up") else ("down")) = ("up") ↔ c) ∧
    ((if c then ("up") else ("down")) = ("down") ↔ ¬ c) := by
  by_cases h : c <;> simp [h]

theorem le_maxTrueVol : ∀ (rs : List BtcFilter.SessionResult), ∀ r ∈ rs,
    r.true_volatility_pct ≤ BtcFilter.maxTrueVol rs := by
  intro rs
  induction rs with
  | nil => simp
  | cons a rest ih =>
    intro r hr
    rcases List.mem_cons.mp hr with h | h
    · subst h
      exact le_max_left _ _
    · exact le_trans (ih r h) (le_max_right _ _)

/- ### C2 : the monthly expiry boundary resolver -/

/-- C2 counterexample: the series holding exactly the Thursday bar
2024-01-04 has a Thursday bar in January 2024, yet the resolver returns no
monthly expiry at all, because the calendar-last Thursday of that month
(2024-01-25) is not present in the series. -/
theorem C2_counterexample :
    Date.weekday ⟨2024, 1, 4⟩ = 3 ∧
    (⟨2024, 1, 4⟩ : Date) ∈ [demoNBar 2024 1 4].map (fun b => b.date) ∧
    NiftyMonthly.get_monthly_expiry_dates [demoNBar 2024 1 4] = [] := by
  exact ⟨by decide, by decide, by decide⟩

/-- C2 amended: every date the monthly-expiry resolver returns is present
in the series, falls on a Thursday, and is the calendar-last Thursday of
its month (no later day of that month is a Thursday); a month whose
calendar-last Thursday is absent from the series contributes nothing,
even if it has earlier Thursday bars. -/
theorem C2_amended (s : List NBar) (e : Date)
    (he : e ∈ NiftyMonthly.get_monthly_expiry_dates s) :
    e ∈ s.map (fun b => b.date) ∧ e.weekday = 3 ∧
    ∀ d, e.day < d → d ≤ monthLen e.year e.month →
      Date.weekday ⟨e.year, e.month, d⟩ ≠ 3 := by
  unfold NiftyMonthly.get_monthly_expiry_dates at he
  obtain ⟨hmem, t, ht, hlt⟩ := monthlyAux_mem (s.map (fun b => b.date)) _ _ e he
  obtain ⟨hy, hm, hd1, hd2, hw, hlast⟩ :=
    lastThursdayAux_spec t.year t.month (monthLen t.year t.month) e hlt
  refine ⟨hmem, hw, ?_⟩
  intro d h1 h2
  rw [hy, hm] at h2 ⊢
  exact hlast d h1 h2

/-- C2 witness: on a series holding 2024-01-04 and 2024-01-25 the resolver
returns 2024-01-25, and the amended theorem applies to it. -/
theorem C2_witness :
    ((⟨2024, 1, 25⟩ : Date) ∈ NiftyMonthly.get_monthly_expiry_dates
      [demoNBar 2024 1 4, demoNBar 2024 1 25]) ∧
    ((⟨2024, 1, 25⟩ : Date) ∈
        ([demoNBar 2024 1 4, demoNBar 2024 1 25].map (fun b => b.date)) ∧
      Date.weekday ⟨2024, 1, 25⟩ = 3 ∧
      ∀ d, (25 : Nat) < d → d ≤ monthLen 2024 1 → Date.weekday ⟨2024, 1, d⟩ ≠ 3) :=
  ⟨by decide, C2_amended [demoNBar 2024 1 4, demoNBar 2024 1 25] ⟨2024, 1, 25⟩ (by decide)⟩

/- ### C3 : empty series -/

/-- C3: on the empty Time Series every variant raises instead of returning
an empty table: with zero rows `pd.DataFrame(results)` has no columns and
`sort_values` raises `KeyError`. -/
theorem sessionResults_nil : BtcFilter.sessionResults [] = [] := by
  unfold BtcFilter.sessionResults BtcFilter.unique_dates
  rw [show ([] : List MBar).map (fun b => b.ts / 1440) = [] from rfl, uniqueKeep_nil_eq]
  rfl

theorem fluctResults_nil : BtcFluct.sessionResults [] = [] := by
  unfold BtcFluct.sessionResults
  rw [show ([] : List MBar).map (fun b => b.ts / 1440) = [] from rfl, uniqueKeep_nil_eq]
  rfl

theorem ethResults_nil : EthWeekly.weeklyResults [] = [] := by
  unfold EthWeekly.weeklyResults EthWeekly.thursdayDays
  rw [show (([] : List MBar).filter
      (fun b => (b.ts / 1440 + 3) % 7 == 3)).map (fun b => b.ts / 1440) = [] from rfl,
    uniqueKeep_nil_eq]
  rfl

theorem weeklyResults_nil : NiftyWeekly.weeklyResults [] = [] := by
  unfold NiftyWeekly.weeklyResults
  simp [NiftyWeekly.weeklyAux, NiftyWeekly.thursdaysOf]

theorem monthlyResults_nil : NiftyMonthly.monthlyResults [] = [] := by
  unfold NiftyMonthly.monthlyResults NiftyMonthly.get_monthly_expiry_dates
  simp [NiftyMonthly.monthlyAux, NiftyMonthly.monthlyWindows, NiftyWeekly.thursdaysOf]

theorem C3_empty_series_raises :
    (∃ m, BtcFilter.calculate_precise_session_stats [] = Except.error m) ∧
    (∃ m, BtcFluct.calculate_precise_session_stats [] = Except.error m) ∧
    (∃ m, EthWeekly.calculate_weekly_volatility [] = Except.error m) ∧
    (∃ m, NiftyDaily.calculate_daily_stats [] = Except.error m) ∧
    (∃ m, NiftyWeekly.calculate_expiry_week_stats [] = Except.error m) ∧
    (∃ m, NiftyMonthly.calculate_monthly_expiry_stats [] = Except.error m) := by
  refine ⟨⟨("KeyError: date"), ?_⟩, ⟨("KeyError: date"), ?_⟩, ⟨("KeyError: start_date"), ?_⟩,
    ⟨("KeyError: date"), ?_⟩, ⟨("KeyError: period_start"), ?_⟩, ⟨("KeyError: period_start"), ?_⟩⟩
  · unfold BtcFilter.calculate_precise_session_stats
    simp only [sessionResults_nil]
    rfl
  · unfold BtcFluct.calculate_precise_session_stats
    simp only [fluctResults_nil]
    rfl
  · unfold EthWeekly.calculate_weekly_volatility
    simp only [ethResults_nil]
    rfl
  · rfl
  · unfold NiftyWeekly.calculate_expiry_week_stats
    simp only [weeklyResults_nil]
    rfl
  · unfold NiftyMonthly.calculate_monthly_expiry_stats
    simp only [monthlyResults_nil]
    rfl

/- ### C5 : windows below the bar-count threshold -/

/-- C5: a 2-bar slice under the >10 threshold emits no WindowResult — the
window itself is silently skipped — but with every window skipped the
result list is empty and the final `sort_values` raises, so the script
errors on this input rather than returning an empty table. -/
theorem demoTwoBars_unique : BtcFilter.unique_dates demoTwoBars = [0] := by
  have hm : demoTwoBars.map (fun b => b.ts / 1440) = [0, 0] := by decide
  unfold BtcFilter.unique_dates
  rw [hm, uniqueKeep]
  have hf : ([0] : List Nat).filter (fun x => x != 0) = [] := by decide
  rw [hf, uniqueKeep_nil_eq]

theorem demoTwoBars_results : BtcFilter.sessionResults demoTwoBars = [] := by
  unfold BtcFilter.sessionResults
  rw [demoTwoBars_unique]
  simp only [List.filterMap_cons, List.filterMap_nil]
  rw [if_neg (by decide : ¬ 10 < (BtcFilter.sessionSlice demoTwoBars 0).length)]

theorem C5_short_window_skipped_but_raises :
    (BtcFilter.sessionSlice demoTwoBars 0).length = 2 ∧
    BtcFilter.unique_dates demoTwoBars = [0] ∧
    BtcFilter.sessionResults demoTwoBars = [] ∧
    (∃ m, BtcFilter.calculate_precise_session_stats demoTwoBars = Except.error m) := by
  refine ⟨by decide, demoTwoBars_unique, demoTwoBars_results, ⟨("KeyError: date"), ?_⟩⟩
  unfold BtcFilter.calculate_precise_session_stats
  simp only [demoTwoBars_results]
  rfl

/- ### C10 : daily Nifty emits one row per bar -/

/-- C10: the daily Nifty variant has no bar-count threshold: every bar
yields exactly one row, so on a nonempty series the table has exactly as
many rows as the series has bars. -/
theorem C10_daily_row_per_bar (s : List NBar) (hne : s ≠ []) :
    (NiftyDaily.dailyResults s).length = s.length ∧
    ∃ t, NiftyDaily.calculate_daily_stats s = Except.ok t ∧ t.length = s.length := by
  have hlen : (NiftyDaily.dailyResults s).length = s.length := by
    unfold NiftyDaily.dailyResults
    exact List.length_map s _
  refine ⟨hlen, sortByKey (fun r => r.date) (NiftyDaily.dailyResults s), ?_, ?_⟩
  · unfold NiftyDaily.calculate_daily_stats
    have hemp : (NiftyDaily.dailyResults s).isEmpty = false := by
      cases s with
      | nil => exact absurd rfl hne
      | cons b rest => rfl
    simp only [hemp]
    rfl
  · exact (sortByKey_length _ _).trans hlen

/-- C10 witness at a one-bar series. -/
theorem C10_witness :
    ([demoNBar 2024 1 5] : List NBar) ≠ [] ∧
    ((NiftyDaily.dailyResults [demoNBar 2024 1 5]).length = 1 ∧
      ∃ t, NiftyDaily.calculate_daily_stats [demoNBar 2024 1 5] = Except.ok t ∧
        t.length = 1) :=
  ⟨by simp, C10_daily_row_per_bar [demoNBar 2024 1 5] (by simp)⟩

/- ### C8 : the 18:30 variant's direction rule -/

/-- C8: in the 18:30 daily-session variant every emitted row's direction is
computed from the net-change sign: it is the string up exactly when the
row's close exceeds its reference open, and down otherwise. -/
theorem C8_direction_from_net_change (s : List MBar) (r : BtcFluct.FluctResult)
    (hr : r ∈ BtcFluct.sessionResults s) :
    (r.direction = ("up") ↔ r.open_ < r.close) ∧
    (r.direction = ("down") ↔ ¬ r.open_ < r.close) := by
  obtain ⟨d, hd, heq⟩ := List.mem_filterMap.mp hr
  have heq2 : (if 10 < (BtcFluct.sessionSlice s d).length then
      some (BtcFluct.aggregate d (BtcFluct.sessionSlice s d)) else none) = some r := heq
  split at heq2
  · have heq3 : BtcFluct.aggregate d (BtcFluct.sessionSlice s d) = r := by injection heq2
    subst heq3
    exact ite_up_down _
  · simp at heq2

/-- C8 witness: the single 18:30 row of `demoFluct`. -/
theorem C8_witness :
    demoFluctRow ∈ BtcFluct.sessionResults demoFluct ∧
    ((demoFluctRow.direction = ("up") ↔ demoFluctRow.open_ < demoFluctRow.close) ∧
     (demoFluctRow.direction = ("down") ↔ ¬ demoFluctRow.open_ < demoFluctRow.close)) :=
  ⟨by rw [demoFluct_results]; exact List.mem_singleton_self _,
   C8_direction_from_net_change demoFluct demoFluctRow
     (by rw [demoFluct_results]; exact List.mem_singleton_self _)⟩

/- ### C4 : the 06:30 aggregator's formulas -/

/-- First bar of the concrete Fixed-Daily-Session scenario. -/
def bC4 : MBar := ⟨390, 100, 100, 98, 100⟩

/-- Second bar of the concrete Fixed-Daily-Session scenario. -/
def bC4t : MBar := ⟨391, 100, 110, 95, 105⟩

/-- C4: on every nonempty 06:30-session slice whose first bar closes above
zero, the aggregator computes the reference open as that first bar's close,
the up/down volatilities and net change as the spec's percentage formulas,
the true volatility as their maximum, the direction as the string up
exactly on a strict up-over-down comparison with ties resolving to down,
and the absolute range as high minus low; in particular the concrete
scenario open 100, high 110, low 95, close 105 yields 10, 5, 10, up, 5, 15. -/
theorem C4_aggregator_formulas :
    (∀ (d : Nat) (b : MBar) (rest : List MBar), 0 < b.close →
      (BtcFilter.aggregate d (b :: rest)).open_ = b.close ∧
      (BtcFilter.aggregate d (b :: rest)).upward_vol_pct =
        (qmax ((b :: rest).map (fun x => x.high)) - b.close) / b.close * 100 ∧
      (BtcFilter.aggregate d (b :: rest)).downward_vol_pct =
        (b.close - qmin ((b :: rest).map (fun x => x.low))) / b.close * 100 ∧
      (BtcFilter.aggregate d (b :: rest)).true_volatility_pct =
        max (BtcFilter.aggregate d (b :: rest)).upward_vol_pct
          (BtcFilter.aggregate d (b :: rest)).downward_vol_pct ∧
      ((BtcFilter.aggregate d (b :: rest)).direction = ("up") ↔
        (BtcFilter.aggregate d (b :: rest)).downward_vol_pct <
          (BtcFilter.aggregate d (b :: rest)).upward_vol_pct) ∧
      ((BtcFilter.aggregate d (b :: rest)).upward_vol_pct =
          (BtcFilter.aggregate d (b :: rest)).downward_vol_pct →
        (BtcFilter.aggregate d (b :: rest)).direction = ("down")) ∧
      (BtcFilter.aggregate d (b :: rest)).net_change_pct =
        ((lastM (b :: rest)).close - b.close) / b.close * 100 ∧
      (BtcFilter.aggregate d (b :: rest)).range_abs =
        qmax ((b :: rest).map (fun x => x.high)) -
          qmin ((b :: rest).map (fun x => x.low))) ∧
    ((BtcFilter.aggregate 0 (bC4 :: [bC4t])).open_ = 100 ∧
      (BtcFilter.aggregate 0 (bC4 :: [bC4t])).high = 110 ∧
      (BtcFilter.aggregate 0 (bC4 :: [bC4t])).low = 95 ∧
      (BtcFilter.aggregate 0 (bC4 :: [bC4t])).close = 105 ∧
      (BtcFilter.aggregate 0 (bC4 :: [bC4t])).upward_vol_pct = 10 ∧
      (BtcFilter.aggregate 0 (bC4 :: [bC4t])).downward_vol_pct = 5 ∧
      (BtcFilter.aggregate 0 (bC4 :: [bC4t])).true_volatility_pct = 10 ∧
      (BtcFilter.aggregate 0 (bC4 :: [bC4t])).direction = ("up") ∧
      (BtcFilter.aggregate 0 (bC4 :: [bC4t])).net_change_pct = 5 ∧
      (BtcFilter.aggregate 0 (bC4 :: [bC4t])).range_abs = 15) := by
  constructor
  · intro d b rest hb
    refine ⟨rfl, rfl, rfl, rfl, ?_, ?_, rfl, rfl⟩
    · exact (ite_up_down ((BtcFilter.aggregate d (b :: rest)).downward_vol_pct <
        (BtcFilter.aggregate d (b :: rest)).upward_vol_pct)).1
    · intro heq
      refine (ite_up_down ((BtcFilter.aggregate d (b :: rest)).downward_vol_pct <
        (BtcFilter.aggregate d (b :: rest)).upward_vol_pct)).2.mpr ?_
      rw [heq]
      exact lt_irrefl _
  · refine ⟨?_, ?_, ?_, ?_, ?_, ?_, ?_, ?_, ?_, ?_⟩ <;>
      norm_num [BtcFilter.aggregate, qmax, qmin, headM, lastM, bC4, bC4t, max_def]

/-- C4 witness: the general part applied to the concrete scenario slice. -/
theorem C4_witness :
    (0 : ℚ) < bC4.close ∧
    ((BtcFilter.aggregate 0 (bC4 :: [bC4t])).open_ = bC4.close ∧
      (BtcFilter.aggregate 0 (bC4 :: [bC4t])).upward_vol_pct =
        (qmax ((bC4 :: [bC4t]).map (fun x => x.high)) - bC4.close) / bC4.close * 100 ∧
      (BtcFilter.aggregate 0 (bC4 :: [bC4t])).downward_vol_pct =
        (bC4.close - qmin ((bC4 :: [bC4t]).map (fun x => x.low))) / bC4.close * 100 ∧
      (BtcFilter.aggregate 0 (bC4 :: [bC4t])).true_volatility_pct =
        max (BtcFilter.aggregate 0 (bC4 :: [bC4t])).upward_vol_pct
          (BtcFilter.aggregate 0 (bC4 :: [bC4t])).downward_vol_pct ∧
      ((BtcFilter.aggregate 0 (bC4 :: [bC4t])).direction = ("up") ↔
        (BtcFilter.aggregate 0 (bC4 :: [bC4t])).downward_vol_pct <
          (BtcFilter.aggregate 0 (bC4 :: [bC4t])).upward_vol_pct) ∧
      ((BtcFilter.aggregate 0 (bC4 :: [bC4t])).upward_vol_pct =
          (BtcFilter.aggregate 0 (bC4 :: [bC4t])).downward_vol_pct →
        (BtcFilter.aggregate 0 (bC4 :: [bC4t])).direction = ("down")) ∧
      (BtcFilter.aggregate 0 (bC4 :: [bC4t])).net_change_pct =
        ((lastM (bC4 :: [bC4t])).close - bC4.close) / bC4.close * 100 ∧
      (BtcFilter.aggregate 0 (bC4 :: [bC4t])).range_abs =
        qmax ((bC4 :: [bC4t]).map (fun x => x.high)) -
          qmin ((bC4 :: [bC4t]).map (fun x => x.low))) :=
  ⟨by norm_num [bC4], C4_aggregator_formulas.1 0 bC4 [bC4t] (by norm_num [bC4])⟩

/- ### C1 : the reference open price -/

/-- C1 counterexample: in the daily Nifty variant the emitted row's
reference open is the bar's own Open column (100), not the bar's close
(105), so the claimed invariant fails for that policy variant. -/
theorem C1_counterexample :
    (NiftyDaily.dailyResults [demoNBar 2024 1 5]).map (fun r => r.open_) = [100] ∧
    [demoNBar 2024 1 5].map (fun b => b.close) = [105] ∧
    (100 : ℚ) ≠ 105 := by
  refine ⟨rfl, rfl, by decide⟩

/-- C1 amended: the three crypto variants (BTC 06:30, BTC 18:30, ETH
weekly) take the reference open of every emitted row from the close of the
first bar of the window's slice; the three Nifty variants instead measure
against the first bar's own Open column (the daily variant's `open` field
and the expiry variants' `start_open`), recording the first bar's close
separately (`close` resp. `start_close`). -/
theorem C1_amended :
    (∀ (s : List MBar), ∀ r ∈ BtcFilter.sessionResults s,
      ∃ d b rest, BtcFilter.sessionSlice s d = b :: rest ∧ r.open_ = b.close) ∧
    (∀ (s : List MBar), ∀ r ∈ BtcFluct.sessionResults s,
      ∃ d b rest, BtcFluct.sessionSlice s d = b :: rest ∧ r.open_ = b.close) ∧
    (∀ (s : List MBar), ∀ r ∈ EthWeekly.weeklyResults s,
      ∃ t b rest, EthWeekly.weekSlice s t = b :: rest ∧ r.open_ = b.close) ∧
    (∀ (s : List NBar), ∀ r ∈ NiftyDaily.dailyResults s,
      ∃ b ∈ s, r.open_ = b.open_ ∧ r.close = b.close) ∧
    (∀ (s : List NBar), ∀ r ∈ NiftyWeekly.weeklyResults s,
      ∃ lo hi b rest, NiftyWeekly.periodSlice s lo hi = b :: rest ∧
        r.start_open = b.open_ ∧ r.start_close = b.close) ∧
    (∀ (s : List NBar), ∀ r ∈ NiftyMonthly.monthlyResults s,
      ∃ lo hi b rest, NiftyWeekly.periodSlice s lo hi = b :: rest ∧
        r.start_open = b.open_ ∧ r.start_close = b.close) := by
  refine ⟨?_, ?_, ?_, ?_, ?_, ?_⟩
  · intro s r hr
    obtain ⟨d, hd, heq⟩ := List.mem_filterMap.mp hr
    have heq2 : (if 10 < (BtcFilter.sessionSlice s d).length then
        some (BtcFilter.aggregate d (BtcFilter.sessionSlice s d)) else none) = some r := heq
    split at heq2
    · next hlen =>
      have heq3 : BtcFilter.aggregate d (BtcFilter.sessionSlice s d) = r := by injection heq2
      cases hsl : BtcFilter.sessionSlice s d with
      | nil => rw [hsl] at hlen; simp at hlen
      | cons b rest =>
        refine ⟨d, b, rest, hsl, ?_⟩
        rw [← heq3, hsl]
        rfl
    · simp at heq2
  · intro s r hr
    obtain ⟨d, hd, heq⟩ := List.mem_filterMap.mp hr
    have heq2 : (if 10 < (BtcFluct.sessionSlice s d).length then
        some (BtcFluct.aggregate d (BtcFluct.sessionSlice s d)) else none) = some r := heq
    split at heq2
    · next hlen =>
      have heq3 : BtcFluct.aggregate d (BtcFluct.sessionSlice s d) = r := by injection heq2
      cases hsl : BtcFluct.sessionSlice s d with
      | nil => rw [hsl] at hlen; simp at hlen
      | cons b rest =>
        refine ⟨d, b, rest, hsl, ?_⟩
        rw [← heq3, hsl]
        rfl
    · simp at heq2
  · intro s r hr
    obtain ⟨t, ht, heq⟩ := List.mem_filterMap.mp hr
    have heq2 : (if 10 < (EthWeekly.weekSlice s t).length then
        some (EthWeekly.aggregate t (EthWeekly.weekSlice s t)) else none) = some r := heq
    split at heq2
    · next hlen =>
      have heq3 : EthWeekly.aggregate t (EthWeekly.weekSlice s t) = r := by injection heq2
      cases hsl : EthWeekly.weekSlice s t with
      | nil => rw [hsl] at hlen; simp at hlen
      | cons b rest =>
        refine ⟨t, b, rest, hsl, ?_⟩
        rw [← heq3, hsl]
        rfl
    · simp at heq2
  · intro s r hr
    obtain ⟨b, hb, heq⟩ := List.mem_map.mp hr
    exact ⟨b, hb, by rw [← heq]; rfl, by rw [← heq]; rfl⟩
  · intro s r hr
    obtain ⟨e1, e2, start, heq, hlen⟩ := weeklyAux_mem_shape s (NiftyWeekly.thursdaysOf s) r hr
    cases hsl : NiftyWeekly.periodSlice s start e2.toOrdinal with
    | nil => rw [hsl] at hlen; simp at hlen
    | cons b rest =>
      refine ⟨start, e2.toOrdinal, b, rest, hsl, ?_, ?_⟩ <;> rw [heq, hsl] <;> rfl
  · intro s r hr
    obtain ⟨e1, e2, start, heq, hlen⟩ :=
      monthlyWindows_mem_shape s (NiftyMonthly.get_monthly_expiry_dates s) r hr
    cases hsl : NiftyWeekly.periodSlice s start e2.toOrdinal with
    | nil => rw [hsl] at hlen; simp at hlen
    | cons b rest =>
      refine ⟨start, e2.toOrdinal, b, rest, hsl, ?_, ?_⟩ <;> rw [heq, hsl] <;> rfl

/-- C1 witness: the amended statement applied to one emitted row of each
of the six variants. -/
theorem C1_witness :
    (demoSessionRow ∈ BtcFilter.sessionResults demoSession ∧
      ∃ d b rest, BtcFilter.sessionSlice demoSession d = b :: rest ∧
        demoSessionRow.open_ = b.close) ∧
    (demoFluctRow ∈ BtcFluct.sessionResults demoFluct ∧
      ∃ d b rest, BtcFluct.sessionSlice demoFluct d = b :: rest ∧
        demoFluctRow.open_ = b.close) ∧
    (demoEthRow ∈ EthWeekly.weeklyResults demoEth ∧
      ∃ t b rest, EthWeekly.weekSlice demoEth t = b :: rest ∧ demoEthRow.open_ = b.close) ∧
    (NiftyDaily.mkDaily (demoNBar 2024 1 5) ∈ NiftyDaily.dailyResults [demoNBar 2024 1 5] ∧
      ∃ b ∈ [demoNBar 2024 1 5], (NiftyDaily.mkDaily (demoNBar 2024 1 5)).open_ = b.open_ ∧
        (NiftyDaily.mkDaily (demoNBar 2024 1 5)).close = b.close) ∧
    (demoWeeklyRow ∈ NiftyWeekly.weeklyResults demoWeekly ∧
      ∃ lo hi b rest, NiftyWeekly.periodSlice demoWeekly lo hi = b :: rest ∧
        demoWeeklyRow.start_open = b.open_ ∧ demoWeeklyRow.start_close = b.close) ∧
    (demoMonthlyRow ∈ NiftyMonthly.monthlyResults demoMonthly ∧
      ∃ lo hi b rest, NiftyWeekly.periodSlice demoMonthly lo hi = b :: rest ∧
        demoMonthlyRow.start_open = b.open_ ∧ demoMonthlyRow.start_close = b.close) := by
  have h1 : demoSessionRow ∈ BtcFilter.sessionResults demoSession := by
    rw [demoSession_results]; exact List.mem_singleton_self _
  have h2 : demoFluctRow ∈ BtcFluct.sessionResults demoFluct := by
    rw [demoFluct_results]; exact List.mem_singleton_self _
  have h3 : demoEthRow ∈ EthWeekly.weeklyResults demoEth := by
    rw [demoEth_results]; exact List.mem_singleton_self _
  have h4 : NiftyDaily.mkDaily (demoNBar 2024 1 5) ∈
      NiftyDaily.dailyResults [demoNBar 2024 1 5] := List.mem_singleton_self _
  have h5 : demoWeeklyRow ∈ NiftyWeekly.weeklyResults demoWeekly := by
    rw [demoWeekly_results]; exact List.mem_singleton_self _
  have h6 : demoMonthlyRow ∈ NiftyMonthly.monthlyResults demoMonthly := by
    rw [demoMonthly_results]; exact List.mem_singleton_self _
  exact ⟨⟨h1, C1_amended.1 demoSession demoSessionRow h1⟩,
    ⟨h2, C1_amended.2.1 demoFluct demoFluctRow h2⟩,
    ⟨h3, C1_amended.2.2.1 demoEth demoEthRow h3⟩,
    ⟨h4, C1_amended.2.2.2.1 [demoNBar 2024 1 5] _ h4⟩,
    ⟨h5, C1_amended.2.2.2.2.1 demoWeekly demoWeeklyRow h5⟩,
    ⟨h6, C1_amended.2.2.2.2.2 demoMonthly demoMonthlyRow h6⟩⟩

/- ### C6 : weekly-expiry window construction -/

/-- C6: for every emitted weekly-expiry row there is a consecutive pair of
detected expiry Thursdays such that the window ends at the second expiry
and starts at the first timestamp strictly after the first expiry that is
present in the series, found by advancing day by day and never passing the
second expiry (if no present day is found the start equals the second
expiry); the slice has at least 3 bars. The concrete scenario with
Thursdays 2024-01-04 and 2024-01-11 and four trading bars in between
yields exactly one row from 2024-01-05 (ordinal 738890) to 2024-01-11
(ordinal 738896). -/
theorem C6_weekly_window_construction :
    (∀ (s : List NBar), s.Pairwise (fun a b => a.date.toOrdinal < b.date.toOrdinal) →
      ∀ r ∈ NiftyWeekly.weeklyResults s,
        ∃ i, ∃ h1 : i + 1 < (NiftyWeekly.thursdaysOf s).length,
          r.expiry_date =
            ((NiftyWeekly.thursdaysOf s).get ⟨i, Nat.lt_of_succ_lt h1⟩).toOrdinal ∧
          r.period_end = ((NiftyWeekly.thursdaysOf s).get ⟨i + 1, h1⟩).toOrdinal ∧
          r.expiry_date < r.period_start ∧
          r.period_start ≤ r.period_end ∧
          (r.period_start ∈ NiftyWeekly.ordsOf s ∨ r.period_start = r.period_end) ∧
          (∀ t, r.expiry_date < t → t < r.period_start → t ∉ NiftyWeekly.ordsOf s) ∧
          r.trading_days = (NiftyWeekly.periodSlice s r.period_start r.period_end).length ∧
          3 ≤ r.trading_days) ∧
    ((NiftyWeekly.weeklyResults demoWeekly).length = 1 ∧
      (NiftyWeekly.weeklyResults demoWeekly).map (fun r => (r.period_start, r.period_end)) =
        [(738890, 738896)] ∧
      (738890 : Nat) ∈ NiftyWeekly.ordsOf demoWeekly ∧
      Date.weekday ⟨2024, 1, 4⟩ = 3 ∧ Date.weekday ⟨2024, 1, 11⟩ = 3) := by
  constructor
  · intro s hs r hr
    exact weeklyAux_mem_spec s (NiftyWeekly.thursdaysOf s) (thursdaysOf_sorted s hs) r hr
  · refine ⟨?_, ?_, by decide, by decide, by decide⟩
    · rw [demoWeekly_results]
      rfl
    · rw [demoWeekly_results]
      rfl

/-- C6 witness: the general statement applied to the single emitted row of
the concrete scenario. -/
theorem C6_witness :
    List.Pairwise (fun a b : NBar => a.date.toOrdinal < b.date.toOrdinal) demoWeekly ∧
    demoWeeklyRow ∈ NiftyWeekly.weeklyResults demoWeekly ∧
    (∃ i, ∃ h1 : i + 1 < (NiftyWeekly.thursdaysOf demoWeekly).length,
      demoWeeklyRow.expiry_date =
        ((NiftyWeekly.thursdaysOf demoWeekly).get ⟨i, Nat.lt_of_succ_lt h1⟩).toOrdinal ∧
      demoWeeklyRow.period_end =
        ((NiftyWeekly.thursdaysOf demoWeekly).get ⟨i + 1, h1⟩).toOrdinal ∧
      demoWeeklyRow.expiry_date < demoWeeklyRow.period_start ∧
      demoWeeklyRow.period_start ≤ demoWeeklyRow.period_end ∧
      (demoWeeklyRow.period_start ∈ NiftyWeekly.ordsOf demoWeekly ∨
        demoWeeklyRow.period_start = demoWeeklyRow.period_end) ∧
      (∀ t, demoWeeklyRow.expiry_date < t → t < demoWeeklyRow.period_start →
        t ∉ NiftyWeekly.ordsOf demoWeekly) ∧
      demoWeeklyRow.trading_days =
        (NiftyWeekly.periodSlice demoWeekly demoWeeklyRow.period_start
          demoWeeklyRow.period_end).length ∧
      3 ≤ demoWeeklyRow.trading_days) := by
  have hmem : demoWeeklyRow ∈ NiftyWeekly.weeklyResults demoWeekly := by
    rw [demoWeekly_results]; exact List.mem_singleton_self _
  exact ⟨by decide, hmem,
    C6_weekly_window_construction.1 demoWeekly (by decide) demoWeeklyRow hmem⟩

/- ### C7 : windows do not overlap -/

/-- C7: in every variant no two emitted windows' closed intervals overlap
except possibly at a shared endpoint. The two BTC variants and the ETH
variant need no hypothesis (distinct days give disjoint sessions; distinct
Thursdays are at least seven days apart); the Nifty variants assume the
series is a valid TimeSeries (strictly ascending dedupedd timestamps, and
for the monthly variant real calendar dates). For the daily Nifty variant
a window is the single day `[date, date]`, so non-overlap is distinctness
of the row dates; the listed `Pairwise` relations imply the symmetric
pairwise non-overlap of all emitted windows. -/
theorem C7_windows_nonoverlap :
    (∀ s : List MBar, (BtcFilter.sessionResults s).Pairwise
      (fun r1 r2 => r1.close_time ≤ r2.open_time ∨ r2.close_time ≤ r1.open_time)) ∧
    (∀ s : List MBar, (BtcFluct.sessionResults s).Pairwise
      (fun r1 r2 => r1.close_time ≤ r2.open_time ∨ r2.close_time ≤ r1.open_time)) ∧
    (∀ s : List MBar, (EthWeekly.weeklyResults s).Pairwise
      (fun r1 r2 => r1.close_time ≤ r2.open_time ∨ r2.close_time ≤ r1.open_time)) ∧
    (∀ s : List NBar, s.Pairwise (fun a b => a.date.toOrdinal ≠ b.date.toOrdinal) →
      (NiftyDaily.dailyResults s).Pairwise (fun r1 r2 => r1.date ≠ r2.date)) ∧
    (∀ s : List NBar, s.Pairwise (fun a b => a.date.toOrdinal < b.date.toOrdinal) →
      (NiftyWeekly.weeklyResults s).Pairwise
        (fun r1 r2 => r1.period_end ≤ r2.period_start ∨ r2.period_end ≤ r1.period_start)) ∧
    (∀ s : List NBar, (∀ b ∈ s, ValidDate b.date) →
      s.Pairwise (fun a b => a.date.toOrdinal < b.date.toOrdinal) →
      (NiftyMonthly.monthlyResults s).Pairwise
        (fun r1 r2 => r1.period_end ≤ r2.period_start ∨ r2.period_end ≤ r1.period_start)) := by
  refine ⟨?_, ?_, ?_, ?_, ?_, ?_⟩
  · intro s
    unfold BtcFilter.sessionResults
    refine pairwise_filterMap_of _ ?_ _ (uniqueKeep_nodup _ _ (le_refl _))
    intro d d' hne r hr r' hr'
    have hr2 : (if 10 < (BtcFilter.sessionSlice s d).length then
        some (BtcFilter.aggregate d (BtcFilter.sessionSlice s d)) else none) = some r := hr
    have hr2' : (if 10 < (BtcFilter.sessionSlice s d').length then
        some (BtcFilter.aggregate d' (BtcFilter.sessionSlice s d')) else none) = some r' := hr'
    split at hr2
    · split at hr2'
      · have h1 : BtcFilter.aggregate d (BtcFilter.sessionSlice s d) = r := by injection hr2
        have h2 : BtcFilter.aggregate d' (BtcFilter.sessionSlice s d') = r' := by
          injection hr2'
        subst h1
        subst h2
        show d * 1440 + 720 ≤ d' * 1440 + 390 ∨ d' * 1440 + 720 ≤ d * 1440 + 390
        rcases Nat.lt_or_ge d d' with h | h
        · left; omega
        · right; omega
      · simp at hr2'
    · simp at hr2
  · intro s
    unfold BtcFluct.sessionResults
    refine pairwise_filterMap_of _ ?_ _ (uniqueKeep_nodup _ _ (le_refl _))
    intro d d' hne r hr r' hr'
    have hr2 : (if 10 < (BtcFluct.sessionSlice s d).length then
        some (BtcFluct.aggregate d (BtcFluct.sessionSlice s d)) else none) = some r := hr
    have hr2' : (if 10 < (BtcFluct.sessionSlice s d').length then
        some (BtcFluct.aggregate d' (BtcFluct.sessionSlice s d')) else none) = some r' := hr'
    split at hr2
    · split at hr2'
      · have h1 : BtcFluct.aggregate d (BtcFluct.sessionSlice s d) = r := by injection hr2
        have h2 : BtcFluct.aggregate d' (BtcFluct.sessionSlice s d') = r' := by
          injection hr2'
        subst h1
        subst h2
        show d * 1440 + 2160 ≤ d' * 1440 + 1110 ∨ d' * 1440 + 2160 ≤ d * 1440 + 1110
        rcases Nat.lt_or_ge d d' with h | h
        · left; omega
        · right; omega
      · simp at hr2'
    · simp at hr2
  · intro s
    have hall : ∀ t ∈ EthWeekly.thursdayDays s, (t + 3) % 7 = 3 := by
      intro t ht
      unfold EthWeekly.thursdayDays at ht
      have hsub := uniqueKeep_subset _ _ (le_refl _) t ht
      obtain ⟨b, hb, rfl⟩ := List.mem_map.mp hsub
      have := (List.mem_filter.mp hb).2
      simpa using this
    unfold EthWeekly.weeklyResults
    have hpw : (EthWeekly.thursdayDays s).Pairwise
        (fun t t' => t ≠ t' ∧ (t + 3) % 7 = 3 ∧ (t' + 3) % 7 = 3) :=
      List.Pairwise.imp_of_mem
        (fun ha hb hne => ⟨hne, hall _ ha, hall _ hb⟩)
        (uniqueKeep_nodup _ _ (le_refl _))
    refine pairwise_filterMap_of _ ?_ _ hpw
    intro t t' hR r hr r'
    intro hr'
    have hr2 : (if 10 < (EthWeekly.weekSlice s t).length then
        some (EthWeekly.aggregate t (EthWeekly.weekSlice s t)) else none) = some r := hr
    have hr2' : (if 10 < (EthWeekly.weekSlice s t').length then
        some (EthWeekly.aggregate t' (EthWeekly.weekSlice s t')) else none) = some r' := hr'
    split at hr2
    · split at hr2'
      · have h1 : EthWeekly.aggregate t (EthWeekly.weekSlice s t) = r := by injection hr2
        have h2 : EthWeekly.aggregate t' (EthWeekly.weekSlice s t') = r' := by injection hr2'
        subst h1
        subst h2
        obtain ⟨hne, h3, h3'⟩ := hR
        show t * 1440 + 10800 ≤ t' * 1440 + 720 ∨ t' * 1440 + 10800 ≤ t * 1440 + 720
        rcases Nat.lt_or_ge t t' with h | h
        · left; omega
        · right
          have : t' < t := by omega
          omega
      · simp at hr2'
    · simp at hr2
  · intro s hs
    unfold NiftyDaily.dailyResults
    rw [List.pairwise_map]
    exact hs.imp (fun h => h)
  · intro s hs
    have hp := (thursdaysOf_sorted s hs).imp (fun h => le_of_lt h)
    exact (weeklyAux_pairwise s (NiftyWeekly.thursdaysOf s) hp).imp
      (fun h => Or.inl (le_of_lt h))
  · intro s hv hs
    have hp := ((get_monthly_expiry_dates_props s hv hs).2).imp (fun h => le_of_lt h)
    exact (monthlyWindows_pairwise s (NiftyMonthly.get_monthly_expiry_dates s) hp).imp
      (fun h => Or.inl (le_of_lt h))

/-- C7 witness: the six conjuncts applied at concrete series. -/
theorem C7_witness :
    (List.Pairwise (fun a b : NBar => a.date.toOrdinal ≠ b.date.toOrdinal)
      [demoNBar 2024 1 5]) ∧
    List.Pairwise (fun a b : NBar => a.date.toOrdinal < b.date.toOrdinal) demoWeekly ∧
    (∀ b ∈ demoMonthly, ValidDate b.date) ∧
    List.Pairwise (fun a b : NBar => a.date.toOrdinal < b.date.toOrdinal) demoMonthly ∧
    (BtcFilter.sessionResults demoSession).Pairwise
      (fun r1 r2 => r1.close_time ≤ r2.open_time ∨ r2.close_time ≤ r1.open_time) ∧
    (BtcFluct.sessionResults demoFluct).Pairwise
      (fun r1 r2 => r1.close_time ≤ r2.open_time ∨ r2.close_time ≤ r1.open_time) ∧
    (EthWeekly.weeklyResults demoEth).Pairwise
      (fun r1 r2 => r1.close_time ≤ r2.open_time ∨ r2.close_time ≤ r1.open_time) ∧
    (NiftyDaily.dailyResults [demoNBar 2024 1 5]).Pairwise
      (fun r1 r2 => r1.date ≠ r2.date) ∧
    (NiftyWeekly.weeklyResults demoWeekly).Pairwise
      (fun r1 r2 => r1.period_end ≤ r2.period_start ∨ r2.period_end ≤ r1.period_start) ∧
    (NiftyMonthly.monthlyResults demoMonthly).Pairwise
      (fun r1 r2 => r1.period_end ≤ r2.period_start ∨ r2.period_end ≤ r1.period_start) :=
  ⟨by decide, by decide, by decide, by decide,
    C7_windows_nonoverlap.1 demoSession,
    C7_windows_nonoverlap.2.1 demoFluct,
    C7_windows_nonoverlap.2.2.1 demoEth,
    C7_windows_nonoverlap.2.2.2.1 [demoNBar 2024 1 5] (by decide),
    C7_windows_nonoverlap.2.2.2.2.1 demoWeekly (by decide),
    C7_windows_nonoverlap.2.2.2.2.2 demoMonthly (by decide) (by decide)⟩

/- ### C9 : minimum-volatility filter laws -/

theorem sessionResults_vol_nonneg (s : List MBar)
    (hbar : ∀ b ∈ s, b.close ≤ b.high ∧ 0 < b.close) :
    ∀ r ∈ BtcFilter.sessionResults s, 0 ≤ r.true_volatility_pct := by
  intro r hr
  unfold BtcFilter.sessionResults at hr
  obtain ⟨d, hd, heq⟩ := List.mem_filterMap.mp hr
  have heq2 : (if 10 < (BtcFilter.sessionSlice s d).length then
      some (BtcFilter.aggregate d (BtcFilter.sessionSlice s d)) else none) = some r := heq
  split at heq2
  · have hragg : BtcFilter.aggregate d (BtcFilter.sessionSlice s d) = r := by injection heq2
    subst hragg
    rename_i hlen
    cases hsl : BtcFilter.sessionSlice s d with
    | nil => rw [hsl] at hlen; simp at hlen
    | cons b0 rest =>
      have hb0s : b0 ∈ s := by
        have hmem : b0 ∈ BtcFilter.sessionSlice s d := by
          rw [hsl]; exact List.mem_cons_self _ _
        exact List.mem_of_mem_filter hmem
      obtain ⟨hch, hcpos⟩ := hbar b0 hb0s
      have hhigh : b0.high ≤ qmax ((b0 :: rest).map (fun b => b.high)) :=
        le_qmax _ _ (List.mem_map.mpr ⟨b0, List.mem_cons_self _ _, rfl⟩)
      have hproj : (BtcFilter.aggregate d (b0 :: rest)).true_volatility_pct
          = max ((qmax ((b0 :: rest).map fun b => b.high) - b0.close) / b0.close * 100)
            ((b0.close - qmin ((b0 :: rest).map fun b => b.low)) / b0.close * 100) := rfl
      rw [hproj]
      have hA : (0:ℚ) ≤ (qmax ((b0 :: rest).map fun b => b.high) - b0.close) / b0.close * 100 := by
        apply mul_nonneg
        · apply div_nonneg
          · linarith
          · linarith
        · norm_num
      exact le_max_of_le_left hA
  · simp at heq2

/-- C9: for a table built from bars satisfying the Bar invariant with
positive closes (hence positive reference opens), the minimum-volatility
filter at threshold 0 returns the sorted table unchanged, and at any
threshold strictly above the table's maximum `true_volatility_pct` it
returns the empty table. -/
theorem C9_filter_law (s : List MBar)
    (hbar : ∀ b ∈ s, b.close ≤ b.high ∧ 0 < b.close) :
    BtcFilter.filterByMinVol 0 (sortByKey (fun r => r.date) (BtcFilter.sessionResults s))
      = sortByKey (fun r => r.date) (BtcFilter.sessionResults s) ∧
    ∀ t : ℚ,
      BtcFilter.maxTrueVol (sortByKey (fun r => r.date) (BtcFilter.sessionResults s)) < t →
      BtcFilter.filterByMinVol t (sortByKey (fun r => r.date) (BtcFilter.sessionResults s))
        = [] := by
  constructor
  · apply List.filter_eq_self.mpr
    intro r hr
    have hr2 : r ∈ BtcFilter.sessionResults s := (mem_sortByKey _ _ _).mp hr
    simpa using sessionResults_vol_nonneg s hbar r hr2
  · intro t ht
    apply List.filter_eq_nil_iff.mpr
    intro r hr
    have hle : r.true_volatility_pct ≤
        BtcFilter.maxTrueVol (sortByKey (fun r => r.date) (BtcFilter.sessionResults s)) :=
      le_maxTrueVol _ r hr
    simp only [decide_eq_true_eq]
    intro hcon
    exact absurd (le_trans hcon hle) (not_le.mpr ht)

set_option maxRecDepth 4000 in
/-- C9 witness: the filter laws at the eleven-bar demo session, with the
bar invariant and the threshold bound discharged concretely. -/
theorem C9_witness :
    (∀ b ∈ demoSession, b.close ≤ b.high ∧ 0 < b.close) ∧
    BtcFilter.filterByMinVol 0 (sortByKey (fun r => r.date) (BtcFilter.sessionResults demoSession))
      = sortByKey (fun r => r.date) (BtcFilter.sessionResults demoSession) ∧
    BtcFilter.maxTrueVol (sortByKey (fun r => r.date) (BtcFilter.sessionResults demoSession)) < 100 ∧
    BtcFilter.filterByMinVol 100
      (sortByKey (fun r => r.date) (BtcFilter.sessionResults demoSession)) = [] := by
  have hb : ∀ b ∈ demoSession, b.close ≤ b.high ∧ 0 < b.close := by decide
  have hsl : BtcFilter.sessionSlice demoSession 0 = demoSession := by decide
  have hq1 : qmax (demoSession.map (fun b => b.high)) = 110 := by decide
  have hq2 : qmin (demoSession.map (fun b => b.low)) = 95 := by decide
  have hh : (headM demoSession).close = 100 := by decide
  have htv : demoSessionRow.true_volatility_pct = 10 := by
    unfold demoSessionRow
    rw [hsl]
    show max ((qmax (demoSession.map fun b => b.high) - (headM demoSession).close)
        / (headM demoSession).close * 100)
      (((headM demoSession).close - qmin (demoSession.map fun b => b.low))
        / (headM demoSession).close * 100) = 10
    simp only [hq1, hq2, hh]
    norm_num [max_def]
  have hmax : BtcFilter.maxTrueVol (sortByKey (fun r => r.date)
      (BtcFilter.sessionResults demoSession)) < 100 := by
    rw [demoSession_results]
    show max demoSessionRow.true_volatility_pct 0 < 100
    rw [htv]
    norm_num
  exact ⟨hb, (C9_filter_law demoSession hb).1, hmax,
    (C9_filter_law demoSession hb).2 100 hmax⟩
